import Mathlib

/-!
Verification of the calendar core of the `produtosKosherFortaleza` API:
a shallow embedding of `pyluach/dates.py` (vendored in the repository)
and of the month-name helper in `main.py`, together with proofs of the
specification's claims about them.

Modelling conventions:
* Python `int` is modelled by `ℤ` (or `ℕ` where the source values are
  provably non-negative), Python floats by `ℚ`.  The float expressions
  appearing in the source (`365.25*year`, `30.6001*month`, `x + .5`)
  are exact in double precision for every value reachable in this
  program (the products stay far from integer boundaries and below
  2^52), so exact rational arithmetic models them faithfully.
* Python `int(x)` truncates toward zero: `pyint` below.
* Python `//` and `%` are floor division and floor modulus; for the
  positive divisors used throughout they coincide with `Int.fdiv`
  (rewritten to `Int.ediv`, Lean's `/`, in proofs) and `Int.emod`.
* `raise ValueError` is modelled with `Except String`.
-/

/-- Python `int()`: truncation toward zero (computable form; see
`pyint_eq` for the floor/ceiling characterization). -/
def pyint (q : ℚ) : ℤ := Int.tdiv q.num q.den

theorem pyint_eq (q : ℚ) : pyint q = if 0 ≤ q then ⌊q⌋ else ⌈q⌉ := by
  unfold pyint
  split_ifs with h
  · rw [Int.tdiv_eq_ediv (Rat.num_nonneg.mpr h) (by positivity), Rat.floor_def]
  · rw [show q.num = -(-q).num by rw [Rat.neg_num]; ring,
        Int.neg_tdiv, show (q.den : ℤ) = ((-q).den : ℤ) by rw [Rat.neg_den],
        Int.tdiv_eq_ediv (Rat.num_nonneg.mpr (by linarith)) (by positivity),
        ← Rat.floor_def, show q = -(-q) by ring, Int.ceil_neg]
    rw [show -(-q) = q by ring]

theorem pyint_intCast (n : ℤ) : pyint (n : ℚ) = n := by
  rw [pyint_eq]
  split <;> simp

theorem pyint_nonneg_floor (q : ℚ) (h : 0 ≤ q) : pyint q = ⌊q⌋ := by
  rw [pyint_eq, if_pos h]

theorem pyint_intCast_add_half (n : ℤ) (h : 0 ≤ n) :
    pyint ((n : ℚ) + 1 / 2) = n := by
  rw [pyint_nonneg_floor _ (by positivity), Int.floor_int_add]
  norm_num

/- rewriting Python floor division to Lean's Euclidean `/`, which agrees
   with it for the positive divisors used in the source -/
theorem fdiv4 (a : ℤ) : Int.fdiv a 4 = a / 4 := Int.fdiv_eq_ediv a (by norm_num)
theorem fdiv11 (a : ℤ) : Int.fdiv a 11 = a / 11 := Int.fdiv_eq_ediv a (by norm_num)
theorem fdiv80 (a : ℤ) : Int.fdiv a 80 = a / 80 := Int.fdiv_eq_ediv a (by norm_num)
theorem fdiv100 (a : ℤ) : Int.fdiv a 100 = a / 100 := Int.fdiv_eq_ediv a (by norm_num)
theorem fdiv2447 (a : ℤ) : Int.fdiv a 2447 = a / 2447 :=
  Int.fdiv_eq_ediv a (by norm_num)
theorem fdiv146097 (a : ℤ) : Int.fdiv a 146097 = a / 146097 :=
  Int.fdiv_eq_ediv a (by norm_num)
theorem fdiv1461001 (a : ℤ) : Int.fdiv a 1461001 = a / 1461001 :=
  Int.fdiv_eq_ediv a (by norm_num)
theorem emod4 (a : ℤ) : Int.fmod a 4 = a % 4 := Int.fmod_eq_emod a (by norm_num)

/- coefficient-splitting identities that keep the linear-arithmetic
   systems small -/
theorem split146097_4 (n : ℤ) : (146097 * n + 3) / 4 = 36524 * n + (n + 3) / 4 := by
  rw [show 146097 * n + 3 = n + 3 + 36524 * n * 4 by ring,
      Int.add_mul_ediv_right _ _ (by norm_num : (4:ℤ) ≠ 0)]
  ring

theorem split1461_4 (n : ℤ) : 1461 * n / 4 = 365 * n + n / 4 := by
  rw [show 1461 * n = n + 365 * n * 4 by ring,
      Int.add_mul_ediv_right _ _ (by norm_num : (4:ℤ) ≠ 0)]
  ring

theorem split2447_80 (n : ℤ) : 2447 * n / 80 = 30 * n + 47 * n / 80 := by
  rw [show 2447 * n = 47 * n + 30 * n * 80 by ring,
      Int.add_mul_ediv_right _ _ (by norm_num : (80:ℤ) ≠ 0)]
  ring

theorem split_century (y : ℤ) : 1461 * y / 4 = 36525 * (y / 100) + 1461 * (y % 100) / 4 := by
  rw [show 1461 * y = 1461 * (y % 100) + 36525 * (y / 100) * 4 by
        rw [show 36525 * (y / 100) * 4 = 146100 * (y / 100) by ring]
        omega,
      Int.add_mul_ediv_right _ _ (by norm_num : (4:ℤ) ≠ 0)]
  ring

namespace JulianDay

/-- `JulianDay.__init__`: normalize a real day count to the canonical
midnight form; `int()` truncates toward zero. -/
def normalize (day : ℚ) : ℚ :=
  if day - pyint day < 1 / 2 then (pyint day : ℚ) - 1 / 2
  else (pyint day : ℚ) + 1 / 2

end JulianDay

namespace GregorianDate

/-- `GregorianDate._is_leap`: the source shifts years below zero up by
one (no year zero) and then applies the Gregorian rule. -/
def isLeap (year : ℤ) : Bool :=
  let y := if year < 0 then year + 1 else year
  y % 4 == 0 && !(y % 100 == 0 && y % 400 != 0)

/-- `GregorianDate._monthlength`. -/
def monthlength (year month : ℤ) : ℤ :=
  if month == 1 || month == 3 || month == 5 || month == 7 || month == 8
      || month == 10 || month == 12 then 31
  else if month == 2 then (if isLeap year then 29 else 28)
  else 30

/-- Field validity enforced by `GregorianDate.__init__`. -/
def validFields (year month day : ℤ) : Prop :=
  1 ≤ month ∧ month ≤ 12 ∧ 1 ≤ day ∧ day ≤ monthlength year month

instance (y m d : ℤ) : Decidable (validFields y m d) := by
  unfold validFields
  infer_instance

/-- `GregorianDate.jd` (uncached branch): the closed-form Julian-day
formula.  The two float truncations `int(365.25*year)` and
`int(30.6001*month)` are modelled exactly; `365.25 = 1461/4` and the
products `30.6001*month` are nowhere near integers, so double rounding
never changes the truncated value. -/
def jdQ (year month day : ℤ) : ℚ :=
  let y1 := if year < 0 then year + 1 else year
  let y := if month < 3 then y1 - 1 else y1
  let m := (if month < 3 then month + 12 else month) + 1
  let a := Int.fdiv y 100
  let b := 2 - a + Int.fdiv a 4
  (pyint (365.25 * (y : ℚ)) : ℚ) + (pyint (30.6001 * (m : ℚ)) : ℚ)
    + (b : ℚ) + (day : ℚ) + 1720994.5

/-- Integer part of `jdQ`: `jdQ = jdZ + 1/2`. -/
def jdZ (year month day : ℤ) : ℤ :=
  let y1 := if year < 0 then year + 1 else year
  let y := if month < 3 then y1 - 1 else y1
  let m := (if month < 3 then month + 12 else month) + 1
  let a := Int.fdiv y 100
  let b := 2 - a + Int.fdiv a 4
  Int.tdiv (1461 * y) 4 + Int.tdiv (306001 * m) 10000 + b + day + 1720994

theorem pyint_mul_quarter (y : ℤ) :
    pyint (365.25 * (y : ℚ)) = Int.tdiv (1461 * y) 4 := by
  have h1 : (365.25 : ℚ) * (y : ℚ) = ((1461 * y : ℤ) : ℚ) / ((4 : ℕ) : ℚ) := by
    push_cast
    ring
  rw [h1]
  rcases le_or_lt 0 y with hy | hy
  · rw [pyint_nonneg_floor _ (by positivity), Rat.floor_intCast_div_natCast,
        Int.tdiv_eq_ediv (by positivity) (by norm_num)]
    norm_num
  · rw [pyint_eq]
    rw [if_neg (by
      rw [not_le]
      apply div_neg_of_neg_of_pos
      · exact_mod_cast by nlinarith
      · norm_num)]
    rw [show ((1461 * y : ℤ) : ℚ) / ((4 : ℕ) : ℚ)
          = -(((1461 * (-y) : ℤ) : ℚ) / ((4 : ℕ) : ℚ)) by push_cast; ring,
        Int.ceil_neg, Rat.floor_intCast_div_natCast]
    rw [show Int.tdiv (1461 * y) 4 = -Int.tdiv (1461 * (-y)) 4 by
      rw [show 1461 * y = -(1461 * (-y)) by ring, Int.neg_tdiv]]
    rw [Int.tdiv_eq_ediv (by nlinarith) (by norm_num)]
    norm_num

theorem pyint_mul_month (m : ℤ) (h : 0 ≤ m) :
    pyint (30.6001 * (m : ℚ)) = Int.tdiv (306001 * m) 10000 := by
  have h1 : (30.6001 : ℚ) * (m : ℚ) = ((306001 * m : ℤ) : ℚ) / ((10000 : ℕ) : ℚ) := by
    push_cast
    ring
  rw [h1, pyint_nonneg_floor _ (by positivity), Rat.floor_intCast_div_natCast,
      Int.tdiv_eq_ediv (by positivity) (by norm_num)]
  norm_num

theorem jdQ_eq_jdZ (year month day : ℤ) (hm : 1 ≤ month) :
    jdQ year month day = (jdZ year month day : ℚ) + 1 / 2 := by
  simp only [jdQ, jdZ]
  rw [pyint_mul_quarter, pyint_mul_month _ (by split <;> omega)]
  push_cast
  ring

end GregorianDate

/-- A constructed `GregorianDate` object: validated fields plus the
optional cached Julian Day value (`_jd`). -/
structure GregObj where
  year : ℤ
  month : ℤ
  day : ℤ
  cjd : Option ℚ
deriving DecidableEq

namespace GregorianDate

/-- `GregorianDate.__init__`: validation, then field assignment. -/
def mk' (year month day : ℤ) (jd : Option ℚ) : Except String GregObj :=
  if month < 1 ∨ 12 < month then .error "invalid month"
  else if day < 1 ∨ monthlength year month < day then .error "given month has fewer days"
  else .ok ⟨year, month, day, jd⟩

end GregorianDate

namespace JulianDay

/- `JulianDay.to_greg` assigns to `L`, `n`, `i`, `j` in sequence; the
stages below name each successive value (SSA form of the source). -/
def fvfN (J : ℤ) : ℤ := Int.fdiv (4 * (J + 68569)) 146097
def fvfL1 (J : ℤ) : ℤ := J + 68569 - Int.fdiv (146097 * fvfN J + 3) 4
def fvfI (J : ℤ) : ℤ := Int.fdiv (4000 * (fvfL1 J + 1)) 1461001
def fvfL2 (J : ℤ) : ℤ := fvfL1 J - Int.fdiv (1461 * fvfI J) 4 + 31
def fvfJj (J : ℤ) : ℤ := Int.fdiv (80 * fvfL2 J) 2447
def fvfDay (J : ℤ) : ℤ := fvfL2 J - Int.fdiv (2447 * fvfJj J) 80
def fvfL3 (J : ℤ) : ℤ := Int.fdiv (fvfJj J) 11
def fvfMonth (J : ℤ) : ℤ := fvfJj J + 2 - 12 * fvfL3 J
def fvfYearRaw (J : ℤ) : ℤ := 100 * (fvfN J - 49) + fvfI J + fvfL3 J

/-- The year returned by `to_greg`, after the `if year < 1: year -= 1`
adjustment producing B.C.E. numbering. -/
def fvfYear (J : ℤ) : ℤ :=
  if fvfYearRaw J < 1 then fvfYearRaw J - 1 else fvfYearRaw J

/-- `JulianDay.to_greg`: runs the Fliegel-Van Flandern steps on
`int(self.day + .5)` and constructs a `GregorianDate` carrying
`self.day` as the cached Julian Day. -/
def to_greg (day : ℚ) : Except String GregObj :=
  let jd := pyint (day + 1 / 2)
  GregorianDate.mk' (fvfYear jd) (fvfMonth jd) (fvfDay jd) (some day)

/-- Century extraction: the heart of the inversion proof.  For a Julian
Day number written in century coordinates the first two stages recover
the century and the day within it, and the third stage recovers the
year within the century. -/
theorem fvf_core (Q R S J : ℤ) (hR0 : 0 ≤ R) (hR1 : R ≤ 99)
    (hS0 : 31 ≤ S) (hS1 : S ≤ 396)
    (hS99 : R = 99 → S ≤ 395 ∨ ((Q + 1) % 4 = 0 ∧ S ≤ 396))
    (hS396 : S = 396 → R % 4 = 3)
    (hJ : J + 68569 = 36524 * Q + Q / 4 + (1461 * R) / 4 + S + 1789658) :
    fvfN J = Q + 49 ∧ fvfL1 J = (1461 * R) / 4 + S - 31 ∧
      fvfI J = R ∧ fvfL2 J = S := by
  have hn : fvfN J = Q + 49 := by
    unfold fvfN
    rw [fdiv146097]
    omega
  have hL1 : fvfL1 J = (1461 * R) / 4 + S - 31 := by
    unfold fvfL1
    rw [hn, fdiv4, split146097_4]
    omega
  have hi : fvfI J = R := by
    unfold fvfI
    rw [hL1, fdiv1461001, split1461_4]
    omega
  have hL2 : fvfL2 J = S := by
    unfold fvfL2
    rw [hL1, hi, fdiv4]
    omega
  exact ⟨hn, hL1, hi, hL2⟩

end JulianDay

namespace GregorianDate

/-- Closed `ediv` form of `jdZ` for positive years and `month ≥ 3`. -/
theorem jdZ_ge3 (y m d : ℤ) (hy : 1 ≤ y) (hm : 3 ≤ m) :
    jdZ y m d =
      1461 * y / 4 + 306001 * (m + 1) / 10000
        + 2 - y / 100 + y / 100 / 4 + d + 1720994 := by
  simp only [jdZ]
  rw [if_neg (show ¬ y < 0 by omega), if_neg (show ¬ m < 3 by omega),
      if_neg (show ¬ m < 3 by omega)]
  rw [Int.tdiv_eq_ediv (by positivity) (by norm_num),
      Int.tdiv_eq_ediv (by positivity) (by norm_num),
      fdiv100, fdiv4]
  ring

/-- Closed `ediv` form of `jdZ` for positive years and `month < 3`. -/
theorem jdZ_lt3 (y m d : ℤ) (hy : 1 ≤ y) (hm1 : 1 ≤ m) (hm : m < 3) :
    jdZ y m d =
      1461 * (y - 1) / 4 + 306001 * (m + 13) / 10000
        + 2 - (y - 1) / 100 + (y - 1) / 100 / 4 + d + 1720994 := by
  simp only [jdZ]
  rw [if_neg (show ¬ y < 0 by omega), if_pos hm, if_pos hm]
  rw [Int.tdiv_eq_ediv (by omega) (by norm_num),
      Int.tdiv_eq_ediv (by omega) (by norm_num),
      fdiv100, fdiv4]
  ring_nf

end GregorianDate

namespace JulianDay

open GregorianDate in
/-- Round-trip of the raw F-VF stages for positive years, months
March through December. -/
theorem fvf_jdZ_ge3 (y m d : ℤ) (hy : 1 ≤ y) (hm : 3 ≤ m) (hm2 : m ≤ 12)
    (hd1 : 1 ≤ d) (hd31 : d ≤ 31)
    (hd30 : m = 4 ∨ m = 6 ∨ m = 9 ∨ m = 11 → d ≤ 30) :
    fvfYearRaw (jdZ y m d + 1) = y ∧ fvfMonth (jdZ y m d + 1) = m ∧
      fvfDay (jdZ y m d + 1) = d := by
  have hsplit := split_century y
  have hJ : jdZ y m d + 1 + 68569 =
      36524 * (y / 100) + (y / 100) / 4 + (1461 * (y % 100)) / 4
        + (306001 * (m + 1) / 10000 + d - 92) + 1789658 := by
    rw [jdZ_ge3 y m d hy hm]
    omega
  obtain ⟨hn, hL1, hi, hL2⟩ :=
    fvf_core (y / 100) (y % 100) (306001 * (m + 1) / 10000 + d - 92)
      (jdZ y m d + 1) (by omega) (by omega) (by omega) (by omega)
      (by omega) (by omega) hJ
  have hj : fvfJj (jdZ y m d + 1) = m - 2 := by
    unfold fvfJj
    rw [hL2, fdiv2447]
    interval_cases m <;> omega
  have hday : fvfDay (jdZ y m d + 1) = d := by
    unfold fvfDay
    rw [hL2, hj, fdiv80]
    interval_cases m <;> omega
  have hl3 : fvfL3 (jdZ y m d + 1) = 0 := by
    unfold fvfL3
    rw [hj, fdiv11]
    omega
  refine ⟨?_, ?_, hday⟩
  · unfold fvfYearRaw
    rw [hn, hi, hl3]
    omega
  · unfold fvfMonth
    rw [hj, hl3]
    omega

open GregorianDate in
/-- Round-trip of the raw F-VF stages for positive years, January and
February (the months folded into the preceding shifted year). -/
theorem fvf_jdZ_lt3 (y m d : ℤ) (hy : 1 ≤ y) (hm1 : 1 ≤ m) (hm : m < 3)
    (hd1 : 1 ≤ d) (hd31 : d ≤ 31)
    (hdfeb : m = 2 → d ≤ 28 ∨ (d = 29 ∧ y % 4 = 0 ∧ (y % 100 ≠ 0 ∨ y % 400 = 0))) :
    fvfYearRaw (jdZ y m d + 1) = y ∧ fvfMonth (jdZ y m d + 1) = m ∧
      fvfDay (jdZ y m d + 1) = d := by
  have hsplit := split_century (y - 1)
  have hJ : jdZ y m d + 1 + 68569 =
      36524 * ((y - 1) / 100) + ((y - 1) / 100) / 4 + (1461 * ((y - 1) % 100)) / 4
        + (306001 * (m + 13) / 10000 + d - 92) + 1789658 := by
    rw [jdZ_lt3 y m d hy hm1 hm]
    omega
  obtain ⟨hn, hL1, hi, hL2⟩ :=
    fvf_core ((y - 1) / 100) ((y - 1) % 100) (306001 * (m + 13) / 10000 + d - 92)
      (jdZ y m d + 1) (by omega) (by omega) (by omega) (by omega)
      (by omega) (by omega) hJ
  have hj : fvfJj (jdZ y m d + 1) = m + 10 := by
    unfold fvfJj
    rw [hL2, fdiv2447]
    interval_cases m <;> omega
  have hday : fvfDay (jdZ y m d + 1) = d := by
    unfold fvfDay
    rw [hL2, hj, fdiv80]
    interval_cases m <;> omega
  have hl3 : fvfL3 (jdZ y m d + 1) = 1 := by
    unfold fvfL3
    rw [hj, fdiv11]
    omega
  refine ⟨?_, ?_, hday⟩
  · unfold fvfYearRaw
    rw [hn, hi, hl3]
    omega
  · unfold fvfMonth
    rw [hj, hl3]
    omega

end JulianDay

namespace GregorianDate

/-- `_is_leap` in astronomical coordinates: for any astronomical year
`a`, the reported year is `a - 1` when `a < 1`, and `_is_leap` undoes
that shift, so the Boolean is the plain Gregorian test on `a`. -/
theorem isLeap_reported (a : ℤ) :
    isLeap (if a < 1 then a - 1 else a) = true ↔
      a % 4 = 0 ∧ (a % 100 ≠ 0 ∨ a % 400 = 0) := by
  simp only [isLeap, Bool.and_eq_true, beq_iff_eq, Bool.not_eq_true',
    Bool.and_eq_false_iff, beq_eq_false_iff_ne, bne_eq_false_iff_eq, ne_eq]
  split_ifs <;> omega

/-- `_is_leap` for positive years. -/
theorem isLeap_pos (y : ℤ) (hy : 1 ≤ y) :
    isLeap y = true ↔ y % 4 = 0 ∧ (y % 100 ≠ 0 ∨ y % 400 = 0) := by
  have := isLeap_reported y
  rw [if_neg (by omega)] at this
  exact this

/-- `validFields` unfolded to linear-arithmetic form, positive years. -/
theorem validFields_pos_iff (y m d : ℤ) (hy : 1 ≤ y) :
    validFields y m d ↔
      1 ≤ m ∧ m ≤ 12 ∧ 1 ≤ d ∧ d ≤ 31 ∧
        (m = 4 ∨ m = 6 ∨ m = 9 ∨ m = 11 → d ≤ 30) ∧
        (m = 2 → d ≤ 28 ∨ (d = 29 ∧ y % 4 = 0 ∧ (y % 100 ≠ 0 ∨ y % 400 = 0))) := by
  unfold validFields monthlength
  have hleap := isLeap_pos y hy
  constructor
  · rintro ⟨h1, h2, h3, h4⟩
    split_ifs at h4 with hc1 hc2 hlp
    · simp only [Bool.or_eq_true, beq_iff_eq] at hc1
      refine ⟨h1, h2, h3, by omega, by omega, by omega⟩
    · simp only [Bool.or_eq_true, beq_iff_eq] at hc1 hc2
      refine ⟨h1, h2, h3, by omega, by omega, ?_⟩
      intro
      rcases (show d ≤ 28 ∨ d = 29 by omega) with hd | hd
      · exact Or.inl hd
      · exact Or.inr ⟨hd, hleap.mp hlp⟩
    · simp only [Bool.or_eq_true, beq_iff_eq] at hc1 hc2
      refine ⟨h1, h2, h3, by omega, by omega, by omega⟩
    · simp only [Bool.or_eq_true, beq_iff_eq] at hc1 hc2
      refine ⟨h1, h2, h3, by omega, by omega, by omega⟩
  · rintro ⟨h1, h2, h3, h4, h5, h6⟩
    refine ⟨h1, h2, h3, ?_⟩
    split_ifs with hc1 hc2 hlp
    · omega
    · simp only [Bool.or_eq_true, beq_iff_eq] at hc1 hc2
      omega
    · simp only [Bool.or_eq_true, beq_iff_eq] at hc1 hc2
      rw [hleap] at hlp
      omega
    · simp only [Bool.or_eq_true, beq_iff_eq] at hc1 hc2
      omega

/-- `validFields` in linear form, generic in the leap predicate. -/
theorem validFields_leapIff (Y m d : ℤ) (P : Prop) (hl : isLeap Y = true ↔ P) :
    validFields Y m d ↔
      1 ≤ m ∧ m ≤ 12 ∧ 1 ≤ d ∧ d ≤ 31 ∧
        (m = 4 ∨ m = 6 ∨ m = 9 ∨ m = 11 → d ≤ 30) ∧
        (m = 2 → d ≤ 28 ∨ (d = 29 ∧ P)) := by
  unfold validFields monthlength
  constructor
  · rintro ⟨h1, h2, h3, h4⟩
    split_ifs at h4 with hc1 hc2 hlp
    · simp only [Bool.or_eq_true, beq_iff_eq] at hc1
      refine ⟨h1, h2, h3, by omega, by omega, by omega⟩
    · simp only [Bool.or_eq_true, beq_iff_eq] at hc1 hc2
      refine ⟨h1, h2, h3, by omega, by omega, ?_⟩
      intro
      rcases (show d ≤ 28 ∨ d = 29 by omega) with hd | hd
      · exact Or.inl hd
      · exact Or.inr ⟨hd, hl.mp hlp⟩
    · simp only [Bool.or_eq_true, beq_iff_eq] at hc1 hc2
      refine ⟨h1, h2, h3, by omega, by omega, by omega⟩
    · simp only [Bool.or_eq_true, beq_iff_eq] at hc1 hc2
      refine ⟨h1, h2, h3, by omega, by omega, by omega⟩
  · rintro ⟨h1, h2, h3, h4, h5, h6⟩
    refine ⟨h1, h2, h3, ?_⟩
    split_ifs with hc1 hc2 hlp
    · omega
    · simp only [Bool.or_eq_true, beq_iff_eq] at hc1 hc2
      rcases h6 hc2 with hd | hd <;> omega
    · simp only [Bool.or_eq_true, beq_iff_eq] at hc1 hc2
      rcases h6 hc2 with hd | hd
      · omega
      · exact absurd (hl.mpr hd.2) hlp
    · simp only [Bool.or_eq_true, beq_iff_eq] at hc1 hc2
      omega

end GregorianDate

namespace JulianDay

open GregorianDate in
/-- Combined raw round-trip for all valid dates with positive year. -/
theorem fvf_jdZ_roundtrip (y m d : ℤ) (hy : 1 ≤ y) (hv : validFields y m d) :
    fvfYearRaw (jdZ y m d + 1) = y ∧ fvfMonth (jdZ y m d + 1) = m ∧
      fvfDay (jdZ y m d + 1) = d := by
  rw [validFields_pos_iff y m d hy] at hv
  obtain ⟨h1, h2, h3, h4, h5, h6⟩ := hv
  rcases lt_or_le m 3 with hm | hm
  · exact fvf_jdZ_lt3 y m d hy h1 hm h3 h4 (by omega)
  · exact fvf_jdZ_ge3 y m d hy hm h2 h3 h4 h5

end JulianDay

namespace JulianDay

open GregorianDate in
theorem pyint_jdQ (y m d : ℤ) (hm : 1 ≤ m) :
    pyint (jdQ y m d + 1 / 2) = jdZ y m d + 1 := by
  rw [jdQ_eq_jdZ y m d hm,
      show ((jdZ y m d : ℚ) + 1 / 2 + 1 / 2) = ((jdZ y m d + 1 : ℤ) : ℚ) by
        push_cast
        ring,
      pyint_intCast]

open GregorianDate in
/-- Gregorian round-trip for positive years: `to_greg` of the date's
Julian Day value reconstructs exactly the original fields (and carries
the Julian Day value in the `_jd` cache). -/
theorem to_greg_jdQ (y m d : ℤ) (hy : 1 ≤ y) (hv : validFields y m d) :
    to_greg (jdQ y m d) = .ok ⟨y, m, d, some (jdQ y m d)⟩ := by
  obtain ⟨hyr, hmo, hdy⟩ := fvf_jdZ_roundtrip y m d hy hv
  simp only [to_greg, pyint_jdQ y m d hv.1, fvfYear, hyr, hmo, hdy]
  rw [if_neg (show ¬ y < 1 by omega)]
  unfold GregorianDate.mk'
  rw [if_neg (by push_neg; exact ⟨hv.1, hv.2.1⟩),
      if_neg (by push_neg; exact ⟨hv.2.2.1, hv.2.2.2⟩)]

end JulianDay

namespace JulianDay

open GregorianDate in
/-- For every integer Julian day number the F-VF stages produce fields
that pass `GregorianDate.__init__` validation, so `to_greg` never
raises. -/
theorem fvf_valid (J : ℤ) : validFields (fvfYear J) (fvfMonth J) (fvfDay J) := by
  have hN : 146097 * fvfN J ≤ 4 * (J + 68569) ∧
      4 * (J + 68569) < 146097 * (fvfN J + 1) := by
    unfold fvfN
    rw [fdiv146097]
    omega
  have hL1e : fvfL1 J = J + 68569 - (36524 * fvfN J + (fvfN J + 3) / 4) := by
    unfold fvfL1
    rw [fdiv4, split146097_4]
  have hL1 : 0 ≤ fvfL1 J ∧ fvfL1 J ≤ 36524 ∧ (fvfL1 J = 36524 → fvfN J % 4 = 0) := by
    rw [hL1e]
    generalize fvfN J = n at hN ⊢
    generalize J + 68569 = x at hN ⊢
    omega
  have hIc : 1461001 * fvfI J ≤ 4000 * (fvfL1 J + 1) ∧
      4000 * (fvfL1 J + 1) < 1461001 * (fvfI J + 1) := by
    unfold fvfI
    rw [fdiv1461001]
    omega
  have hI : 0 ≤ fvfI J ∧ fvfI J ≤ 99 := by
    generalize fvfI J = i at hIc ⊢
    generalize fvfL1 J = l at hL1 hIc
    omega
  have hL2e : fvfL2 J = fvfL1 J - (365 * fvfI J + fvfI J / 4) + 31 := by
    unfold fvfL2
    rw [fdiv4, split1461_4]
  have hL2 : 31 ≤ fvfL2 J ∧ fvfL2 J ≤ 396 ∧
      (fvfL2 J = 396 → fvfI J % 4 = 3) ∧
      (fvfL2 J = 396 → fvfI J = 99 → fvfN J % 4 = 0) := by
    rw [hL2e]
    generalize fvfI J = i at hIc hI ⊢
    generalize fvfL1 J = l at hL1 hIc ⊢
    omega
  have hJc : 2447 * fvfJj J ≤ 80 * fvfL2 J ∧
      80 * fvfL2 J < 2447 * (fvfJj J + 1) := by
    unfold fvfJj
    rw [fdiv2447]
    omega
  have hDe : fvfDay J = fvfL2 J - (30 * fvfJj J + 47 * fvfJj J / 80) := by
    unfold fvfDay
    rw [fdiv80, split2447_80]
  have hL3e : fvfL3 J = fvfJj J / 11 := by
    unfold fvfL3
    rw [fdiv11]
  have hMe : fvfMonth J = fvfJj J + 2 - 12 * (fvfJj J / 11) := by
    unfold fvfMonth
    rw [hL3e]
  have hYe : fvfYearRaw J = 100 * (fvfN J - 49) + fvfI J + fvfJj J / 11 := by
    unfold fvfYearRaw
    rw [hL3e]
  -- the reported year in astronomical coordinates
  have hYadj : fvfYear J = if fvfYearRaw J < 1 then fvfYearRaw J - 1 else fvfYearRaw J := by
    unfold fvfYear
    split <;> simp
  have hleapiff := isLeap_reported (fvfYearRaw J)
  rw [← hYadj] at hleapiff
  rw [validFields_leapIff _ _ _ _ hleapiff]
  rw [hMe, hDe, hYe]
  generalize hj : fvfJj J = jv at hJc ⊢
  generalize fvfL2 J = l2 at hL2 hJc ⊢
  generalize fvfI J = i at hI hL2 ⊢
  generalize fvfN J = n at hL2 ⊢
  obtain ⟨hjb1, hjb2⟩ : 1 ≤ jv ∧ jv ≤ 12 := by omega
  interval_cases jv <;> omega

end JulianDay

theorem pyint_canonical (K : ℤ) :
    pyint ((K : ℚ) + 1 / 2) = if 0 ≤ K then K else K + 1 := by
  split_ifs with h
  · exact pyint_intCast_add_half K h
  · have hK : K ≤ -1 := by omega
    have hKq : (K : ℚ) ≤ -1 := by exact_mod_cast hK
    rw [pyint_eq, if_neg (by push_neg; linarith)]
    rw [add_comm, Int.ceil_add_int,
        show (⌈(1 / 2 : ℚ)⌉ : ℤ) = 1 by
          rw [Int.ceil_eq_iff]
          constructor <;> norm_num]
    ring

namespace JulianDay

/-- `JulianDay.__init__` is the identity on canonical midnight values,
for either sign. -/
theorem normalize_canonical (K : ℤ) :
    normalize ((K : ℚ) + 1 / 2) = (K : ℚ) + 1 / 2 := by
  unfold normalize
  rw [pyint_canonical]
  rcases le_or_lt 0 K with h | h
  · rw [if_pos h, if_neg (by push_neg; linarith)]
  · rw [if_neg (show ¬ (0:ℤ) ≤ K by omega), if_pos (by push_cast; linarith)]
    push_cast
    ring

open GregorianDate in
/-- `to_greg` succeeds on every canonical Julian Day value: the F-VF
fields always pass construction validation. -/
theorem to_greg_canonical (K : ℤ) :
    to_greg ((K : ℚ) + 1 / 2) =
      .ok ⟨fvfYear (K + 1), fvfMonth (K + 1), fvfDay (K + 1), some ((K : ℚ) + 1 / 2)⟩ := by
  obtain ⟨hv1, hv2, hv3, hv4⟩ := fvf_valid (K + 1)
  simp only [to_greg,
    show pyint ((K : ℚ) + 1 / 2 + 1 / 2) = K + 1 by
      rw [show ((K : ℚ) + 1 / 2 + 1 / 2) = ((K + 1 : ℤ) : ℚ) by push_cast; ring,
          pyint_intCast]]
  unfold GregorianDate.mk'
  rw [if_neg (by push_neg; exact ⟨hv1, hv2⟩), if_neg (by push_neg; exact ⟨hv3, hv4⟩)]

end JulianDay

namespace HebrewDate

/-- Modelled from the spec: the Hebrew leap-year test of §4.3,
`leap iff (7*year + 1) mod 19 < 7`.  The source delegates to
`pyluach.utils._is_leap`, which is not among this repository's source
files; the same formula also appears verbatim in `main.py`
(`hebrew_leap`). -/
def isLeap (year : ℕ) : Bool := (7 * year + 1) % 19 < 7

/-- The month traversal order of `HebrewDate.jd` and
`JulianDay.to_heb`: `[7..13, 1..6]`, with 13 removed
(`months.remove(13)`) in a non-leap year. -/
def monthsList (year : ℕ) : List ℕ :=
  if isLeap year then [7, 8, 9, 10, 11, 12, 13, 1, 2, 3, 4, 5, 6]
  else [7, 8, 9, 10, 11, 12, 1, 2, 3, 4, 5, 6]

end HebrewDate

/-- A constructed `HebrewDate` object: validated fields plus the
optional cached Julian Day value (`_jd`). -/
structure HebObj where
  year : ℕ
  month : ℕ
  day : ℕ
  cjd : Option ℚ
deriving DecidableEq

namespace HebrewDate

/-- Field validity enforced by `HebrewDate.__init__`, with the month
lengths supplied by the external collaborator `monlen`
(spec §6, `hebrewMonthLength`). -/
def validFields (monlen : ℕ → ℕ → ℕ) (y m d : ℕ) : Prop :=
  1 ≤ y ∧ 1 ≤ m ∧ m ≤ 13 ∧ (isLeap y = false → m ≠ 13) ∧
    1 ≤ d ∧ d ≤ monlen y m

instance (monlen : ℕ → ℕ → ℕ) (y m d : ℕ) :
    Decidable (validFields monlen y m d) := by
  unfold validFields
  infer_instance

/-- `HebrewDate.__init__`: the source's four validation checks in
order, then field assignment. -/
def mk' (monlen : ℕ → ℕ → ℕ) (y m d : ℕ) (cjd : Option ℚ) :
    Except String HebObj :=
  if y < 1 then .error "Year must be >= 1."
  else if m < 1 ∨ 13 < m then .error "invalid month"
  else if isLeap y = false ∧ m = 13 then .error "not a leap year"
  else if d < 1 ∨ monlen y m < d then .error "given month has fewer days"
  else .ok ⟨y, m, d, cjd⟩

/-- The month loop of the `HebrewDate.jd` property: starting from the
elapsed-day count, add the length of every month that precedes the
date's month in traversal order; `none` models the source leaving
`_jd` unset when the month never occurs in the list. -/
def jdWalk (ml : ℕ → ℕ) (month day : ℕ) : ℕ → List ℕ → Option ℕ
  | _, [] => none
  | acc, m :: ms =>
      if m ≠ month then jdWalk ml month day (acc + ml m) ms
      else some (acc + (day - 1))

/-- `HebrewDate.jd`, integer part: the day count before the final
`+ 347996.5` anchoring. -/
def jdn (elapsed : ℕ → ℕ) (monlen : ℕ → ℕ → ℕ) (y m d : ℕ) : Option ℕ :=
  jdWalk (monlen y) m d (elapsed y) (monthsList y)

/-- `HebrewDate.jd` (uncached branch). -/
def jdQ (elapsed : ℕ → ℕ) (monlen : ℕ → ℕ → ℕ) (y m d : ℕ) : Option ℚ :=
  (jdn elapsed monlen y m d).map fun n => (n : ℚ) + 347996.5

/-- Total month lengths of the year's traversal list. -/
def sumLens (ml : ℕ → ℕ) (L : List ℕ) : ℕ := (L.map ml).sum

/-- Length in days of Hebrew year `y` under the collaborator. -/
def yearLen (monlen : ℕ → ℕ → ℕ) (y : ℕ) : ℕ :=
  sumLens (monlen y) (monthsList y)

end HebrewDate

namespace JulianDay

/-- The `while first_day > jd: year -= 1` loop of `to_heb`, by
structural descent on the year.  The base case `0` is unreachable
under the collaborator contract (`elapsed 1 ≤ jd` keeps the scan at a
year ≥ 1); Python would instead query the collaborator at
non-positive years, outside its specified domain. -/
def yearScan (elapsed : ℕ → ℕ) (jd : ℕ) : ℕ → ℕ
  | 0 => 0
  | y + 1 => if elapsed (y + 1) > jd then yearScan elapsed jd y else y + 1

/-- The month loop of `to_heb`: subtract month lengths while the
remaining day count covers them; the fall-through (list exhausted)
models the source returning `None`. -/
def monthWalk (ml : ℕ → ℕ) : ℕ → List ℕ → Option (ℕ × ℕ)
  | _, [] => none
  | rem, m :: ms =>
      if rem ≥ ml m then monthWalk ml (rem - ml m) ms else some (m, rem + 1)

/-- `JulianDay.to_heb`: epoch guard, year estimate and scan, month
walk, then `HebrewDate` construction (which re-validates). -/
def to_heb (elapsed : ℕ → ℕ) (monlen : ℕ → ℕ → ℕ) (day : ℚ) :
    Except String (Option HebObj) :=
  if day ≤ 347997 then .error "Date is before creation"
  else
    let jd : ℕ := (pyint (day + 1 / 2) - 347997).toNat
    let year := yearScan elapsed jd (jd / 365 + 2)
    let rem := jd - elapsed year
    match monthWalk (monlen year) rem (HebrewDate.monthsList year) with
    | none => .ok none
    | some (m, d) => (HebrewDate.mk' monlen year m d (some day)).map some

end JulianDay

namespace HebrewDate

theorem mem_monthsList (y m : ℕ) :
    m ∈ monthsList y ↔ (1 ≤ m ∧ m ≤ 12) ∨ (m = 13 ∧ isLeap y = true) := by
  unfold monthsList
  split_ifs with h
  · simp only [List.mem_cons, List.not_mem_nil, or_false]
    constructor
    · intro hm
      rcases hm with h1|h1|h1|h1|h1|h1|h1|h1|h1|h1|h1|h1|h1 <;>
        first
          | exact Or.inl (by omega)
          | exact Or.inr ⟨by omega, h⟩
    · intro hm
      rcases hm with ⟨h1, h2⟩ | ⟨h1, h2⟩ <;> omega
  · simp only [List.mem_cons, List.not_mem_nil, or_false]
    constructor
    · intro hm
      rcases hm with h1|h1|h1|h1|h1|h1|h1|h1|h1|h1|h1|h1 <;> omega
    · intro hm
      rcases hm with ⟨h1, h2⟩ | ⟨h1, h2⟩
      · omega
      · exact absurd h2 h
  
/-- Walking the month list from the date's month recovers it: the
`jd` accumulation and the `to_heb` month walk are inverse. -/
theorem jdWalk_monthWalk (ml : ℕ → ℕ) (m d : ℕ) (hd : 1 ≤ d) (hdl : d ≤ ml m) :
    ∀ L : List ℕ, m ∈ L → ∀ acc, ∃ pre,
      jdWalk ml m d acc L = some (acc + pre + (d - 1)) ∧
      JulianDay.monthWalk ml (pre + (d - 1)) L = some (m, d) ∧
      pre + ml m ≤ sumLens ml L := by
  intro L
  induction L with
  | nil => intro h; exact absurd h (List.not_mem_nil m)
  | cons x xs ih =>
      intro hmem acc
      by_cases hx : x = m
      · refine ⟨0, ?_, ?_, ?_⟩
        · unfold jdWalk
          rw [if_neg (by omega)]
          simp only [Option.some.injEq]
          omega
        · unfold JulianDay.monthWalk
          rw [if_neg (show ¬ (0 + (d - 1) ≥ ml x) by rw [hx]; omega)]
          rw [hx]
          simp only [Option.some.injEq, Prod.mk.injEq, true_and]
          omega
        · unfold sumLens
          simp only [List.map_cons, List.sum_cons]
          rw [hx]
          omega
      · have hmem' : m ∈ xs := by
          rcases List.mem_cons.mp hmem with h | h
          · exact absurd h.symm hx
          · exact h
        obtain ⟨pre', hw, hmw, hsum⟩ := ih hmem' (acc + ml x)
        refine ⟨ml x + pre', ?_, ?_, ?_⟩
        · unfold jdWalk
          rw [if_pos (by omega)]
          rw [hw]
          congr 1
          omega
        · unfold JulianDay.monthWalk
          rw [if_pos (by omega),
              show ml x + pre' + (d - 1) - ml x = pre' + (d - 1) by omega]
          exact hmw
        · unfold sumLens at hsum ⊢
          simp only [List.map_cons, List.sum_cons]
          omega

end HebrewDate

namespace JulianDay

theorem yearScan_eq (elapsed : ℕ → ℕ) (jd y : ℕ) (hy : 1 ≤ y)
    (hle : elapsed y ≤ jd) (hgt : ∀ k, y < k → jd < elapsed k) :
    ∀ s, y ≤ s → yearScan elapsed jd s = y := by
  intro s
  induction s with
  | zero => intro h; omega
  | succ t ih =>
      intro hys
      unfold yearScan
      by_cases hty : y = t + 1
      · rw [if_neg (by rw [← hty]; omega)]
        omega
      · rw [if_pos (by have := hgt (t + 1) (by omega); omega)]
        exact ih (by omega)

/-- The year scan, started anywhere at or above 1, lands on a year
whose elapsed-day count does not exceed the target, and either
exhausts no decrement (returning the start) or stops at the first
admissible year. -/
theorem yearScan_spec (elapsed : ℕ → ℕ) (jd : ℕ) (h1 : elapsed 1 ≤ jd) :
    ∀ s, 1 ≤ s → 1 ≤ yearScan elapsed jd s ∧
      elapsed (yearScan elapsed jd s) ≤ jd ∧
      (yearScan elapsed jd s = s ∨ jd < elapsed (yearScan elapsed jd s + 1)) := by
  intro s
  induction s with
  | zero => intro h; omega
  | succ t ih =>
      intro _
      unfold yearScan
      split_ifs with hgt
      · have ht1 : 1 ≤ t := by
          by_contra h0
          have : t = 0 := by omega
          rw [this] at hgt
          norm_num at hgt
          omega
        obtain ⟨ha, hb, hc⟩ := ih ht1
        refine ⟨ha, hb, ?_⟩
        rcases hc with hc | hc
        · right
          rw [hc]
          omega
        · right
          exact hc
      · exact ⟨by omega, by omega, Or.inl rfl⟩

theorem monthWalk_total (ml : ℕ → ℕ) :
    ∀ (L : List ℕ) (rem : ℕ), rem < HebrewDate.sumLens ml L →
      ∃ m d, monthWalk ml rem L = some (m, d) ∧ m ∈ L ∧ 1 ≤ d ∧ d ≤ ml m := by
  intro L
  induction L with
  | nil =>
      intro rem h
      unfold HebrewDate.sumLens at h
      simp at h
  | cons x xs ih =>
      intro rem h
      unfold monthWalk
      split_ifs with hge
      · unfold HebrewDate.sumLens at h
        simp only [List.map_cons, List.sum_cons] at h
        obtain ⟨m, d, hw, hmem, hd1, hd2⟩ := ih (rem - ml x) (by
          unfold HebrewDate.sumLens
          omega)
        exact ⟨m, d, hw, List.mem_cons_of_mem x hmem, hd1, hd2⟩
      · exact ⟨x, rem + 1, rfl, List.mem_cons_self x xs, by omega, by omega⟩

end JulianDay

namespace HebrewDate

/-- Hebrew round-trip under the collaborator contract of spec §6:
`elapsed` monotone, consistent with the month lengths
(`elapsed (y+1) = elapsed y + yearLen y`), growing at least like the
estimate (`365 * (y - 2) ≤ elapsed y`), and anchored after the epoch
guard (`1 ≤ elapsed 1`). -/
theorem jd_to_heb_roundtrip (elapsed : ℕ → ℕ) (monlen : ℕ → ℕ → ℕ) (y m d : ℕ)
    (hv : validFields monlen y m d)
    (hmono : ∀ a b : ℕ, a ≤ b → elapsed a ≤ elapsed b)
    (hpart : elapsed (y + 1) = elapsed y + yearLen monlen y)
    (hest : 365 * (y - 2) ≤ elapsed y)
    (hepoch : 1 ≤ elapsed 1) :
    ∃ q, jdQ elapsed monlen y m d = some q ∧
      JulianDay.to_heb elapsed monlen q = .ok (some ⟨y, m, d, some q⟩) := by
  obtain ⟨hy1, hm1, hm13, hleap13, hd1, hdl⟩ := hv
  have hmem : m ∈ monthsList y := by
    rw [mem_monthsList]
    rcases Nat.lt_or_ge m 13 with h | h
    · exact Or.inl ⟨hm1, by omega⟩
    · have hm13' : m = 13 := by omega
      refine Or.inr ⟨hm13', ?_⟩
      by_cases hl : isLeap y = true
      · exact hl
      · exact absurd hm13' (hleap13 (by simpa using hl))
  obtain ⟨pre, hw, hmw, hsum⟩ :=
    jdWalk_monthWalk (monlen y) m d hd1 hdl (monthsList y) hmem (elapsed y)
  have hq : jdQ elapsed monlen y m d
      = some (((elapsed y + pre + (d - 1) : ℕ) : ℚ) + 347996.5) := by
    unfold jdQ jdn
    rw [hw]
    rfl
  refine ⟨_, hq, ?_⟩
  have hNe : 1 ≤ elapsed y := le_trans hepoch (hmono 1 y hy1)
  have hN1 : 1 ≤ elapsed y + pre + (d - 1) := by omega
  have hml1 : 1 ≤ monlen y m := le_trans hd1 hdl
  have hyl : yearLen monlen y = sumLens (monlen y) (monthsList y) := rfl
  have hscan : JulianDay.yearScan elapsed (elapsed y + pre + (d - 1))
      ((elapsed y + pre + (d - 1)) / 365 + 2) = y := by
    have hgt : ∀ k, y < k → elapsed y + pre + (d - 1) < elapsed k := by
      intro k hk
      have h1 : elapsed (y + 1) ≤ elapsed k := hmono (y + 1) k (by omega)
      have h2 : pre + (d - 1) < yearLen monlen y := by omega
      omega
    have hs : y ≤ (elapsed y + pre + (d - 1)) / 365 + 2 := by
      have h3 : 365 * (y - 2) / 365 ≤ (elapsed y + pre + (d - 1)) / 365 :=
        Nat.div_le_div_right (by omega)
      rw [Nat.mul_div_cancel_left _ (by norm_num : 0 < 365)] at h3
      omega
    exact JulianDay.yearScan_eq elapsed _ y hy1 (by omega) hgt _ hs
  have hrem : elapsed y + pre + (d - 1) - elapsed y = pre + (d - 1) := by omega
  have hmk : mk' monlen y m d
        (some (((elapsed y + pre + (d - 1) : ℕ) : ℚ) + 347996.5))
      = .ok ⟨y, m, d, some (((elapsed y + pre + (d - 1) : ℕ) : ℚ) + 347996.5)⟩ := by
    unfold mk'
    rw [if_neg (by omega), if_neg (by omega),
        if_neg (by
          rintro ⟨hf, h13⟩
          exact hleap13 hf h13),
        if_neg (by omega)]
  unfold JulianDay.to_heb
  rw [if_neg (by
    push_neg
    have h1 : (1 : ℚ) ≤ ((elapsed y + pre + (d - 1) : ℕ) : ℚ) := by
      exact_mod_cast hN1
    push_cast at h1 ⊢
    linarith)]
  have hpy : pyint (((elapsed y + pre + (d - 1) : ℕ) : ℚ) + 347996.5 + 1 / 2)
      = ((elapsed y + pre + (d - 1) : ℕ) : ℤ) + 347997 := by
    rw [show (((elapsed y + pre + (d - 1) : ℕ) : ℚ) + 347996.5 + 1 / 2)
          = ((((elapsed y + pre + (d - 1) : ℕ) : ℤ) + 347997 : ℤ) : ℚ) by
        push_cast
        ring_nf,
      pyint_intCast]
  have htn : (((elapsed y + pre + (d - 1) : ℕ) : ℤ) + 347997 - 347997).toNat
      = elapsed y + pre + (d - 1) := by
    rw [Int.add_sub_cancel, Int.toNat_natCast]
  simp only [hpy, htn, hscan, hrem, hmw, hmk, Except.map]

end HebrewDate

namespace HebrewDate

theorem mk'_ok (monlen : ℕ → ℕ → ℕ) (y m d : ℕ) (c : Option ℚ)
    (hv : validFields monlen y m d) :
    mk' monlen y m d c = .ok ⟨y, m, d, c⟩ := by
  obtain ⟨h1, h2, h3, h4, h5, h6⟩ := hv
  unfold mk'
  rw [if_neg (by omega), if_neg (by omega),
      if_neg (by
        rintro ⟨hf, h13⟩
        exact h4 hf h13),
      if_neg (by omega)]

end HebrewDate

namespace JulianDay

/-- Under the collaborator contract, the year scan plus month walk of
`to_heb` always succeeds, with a valid field triple, for every
positive day count past the epoch. -/
theorem scanWalk_total (elapsed : ℕ → ℕ) (monlen : ℕ → ℕ → ℕ)
    (_hmono : ∀ a b : ℕ, a ≤ b → elapsed a ≤ elapsed b)
    (hpart : ∀ k, 1 ≤ k → elapsed (k + 1) = elapsed k + HebrewDate.yearLen monlen k)
    (hepoch1 : elapsed 1 ≤ 1)
    (hgrow : ∀ k, 365 * (k + 1) ≤ elapsed (k + 3))
    (J : ℕ) (hJ : 1 ≤ J) :
    ∃ m d, monthWalk (monlen (yearScan elapsed J (J / 365 + 2)))
        (J - elapsed (yearScan elapsed J (J / 365 + 2)))
        (HebrewDate.monthsList (yearScan elapsed J (J / 365 + 2))) = some (m, d) ∧
      HebrewDate.validFields monlen (yearScan elapsed J (J / 365 + 2)) m d := by
  obtain ⟨Y, hYdef⟩ : ∃ Y, yearScan elapsed J (J / 365 + 2) = Y := ⟨_, rfl⟩
  rw [hYdef]
  obtain ⟨hY1, hYle, hYor⟩ := yearScan_spec elapsed J (by omega) (J / 365 + 2) (by omega)
  rw [hYdef] at hY1 hYle hYor
  have hlt : J < elapsed (Y + 1) := by
    rcases hYor with he | hlt
    · rw [he, show J / 365 + 2 + 1 = J / 365 + 3 by omega]
      have hg := hgrow (J / 365)
      omega
    · exact hlt
  have hyl : HebrewDate.yearLen monlen Y
      = HebrewDate.sumLens (monlen Y) (HebrewDate.monthsList Y) := rfl
  have hrem : J - elapsed Y < HebrewDate.sumLens (monlen Y) (HebrewDate.monthsList Y) := by
    have hp := hpart Y hY1
    omega
  obtain ⟨m, d, hw, hmem, hd1, hdl⟩ :=
    monthWalk_total (monlen Y) (HebrewDate.monthsList Y) (J - elapsed Y) hrem
  refine ⟨m, d, hw, hY1, ?_, ?_, ?_, hd1, hdl⟩
  · rcases (HebrewDate.mem_monthsList Y m).mp hmem with ⟨h1, _⟩ | ⟨h1, _⟩ <;> omega
  · rcases (HebrewDate.mem_monthsList Y m).mp hmem with ⟨_, h2⟩ | ⟨h1, _⟩ <;> omega
  · intro hf
    rcases (HebrewDate.mem_monthsList Y m).mp hmem with ⟨_, h2⟩ | ⟨h1, h2⟩
    · omega
    · rw [hf] at h2
      exact absurd h2 (by simp)

end JulianDay

namespace JulianDay

/-- `to_heb` raises exactly below the epoch constant and succeeds with
a valid Hebrew date everywhere at or after it (canonical inputs
`K + 1/2`). -/
theorem to_heb_domain (elapsed : ℕ → ℕ) (monlen : ℕ → ℕ → ℕ)
    (hmono : ∀ a b : ℕ, a ≤ b → elapsed a ≤ elapsed b)
    (hpart : ∀ k, 1 ≤ k → elapsed (k + 1) = elapsed k + HebrewDate.yearLen monlen k)
    (hepoch1 : elapsed 1 ≤ 1)
    (hgrow : ∀ k, 365 * (k + 1) ≤ elapsed (k + 3))
    (K : ℤ) :
    (K ≤ 347996 →
      to_heb elapsed monlen ((K : ℚ) + 1 / 2) = .error "Date is before creation") ∧
    (347997 ≤ K →
      ∃ o : HebObj, to_heb elapsed monlen ((K : ℚ) + 1 / 2) = .ok (some o) ∧
        HebrewDate.validFields monlen o.year o.month o.day ∧
        o.cjd = some ((K : ℚ) + 1 / 2)) := by
  constructor
  · intro hK
    unfold to_heb
    rw [if_pos (by
      have h1 : (K : ℚ) ≤ 347996 := by exact_mod_cast hK
      norm_num
      linarith)]
  · intro hK
    obtain ⟨n, rfl⟩ : ∃ n : ℕ, K = 347997 + n := ⟨(K - 347997).toNat, by omega⟩
    obtain ⟨m, d, hw, hv⟩ :=
      scanWalk_total elapsed monlen hmono hpart hepoch1 hgrow (n + 1) (by omega)
    refine ⟨⟨yearScan elapsed (n + 1) ((n + 1) / 365 + 2), m, d,
      some ((((347997 + n : ℤ)) : ℚ) + 1 / 2)⟩, ?_, hv, rfl⟩
    unfold to_heb
    rw [if_neg (by
      push_neg
      have h1 : (0 : ℚ) ≤ ((n : ℕ) : ℚ) := by positivity
      push_cast
      linarith)]
    have hpy : pyint (((347997 + n : ℤ) : ℚ) + 1 / 2 + 1 / 2) = 347998 + n := by
      rw [show (((347997 + n : ℤ) : ℚ) + 1 / 2 + 1 / 2)
            = ((347998 + (n : ℤ) : ℤ) : ℚ) by push_cast; ring_nf,
          pyint_intCast]
    have htn : ((347998 + (n : ℤ)) - 347997).toNat = n + 1 := by
      rw [show (347998 + (n : ℤ)) - 347997 = ((n + 1 : ℕ) : ℤ) by push_cast; ring,
          Int.toNat_natCast]
    simp only [hpy, htn, hw, HebrewDate.mk'_ok monlen _ m d _ hv, Except.map]

end JulianDay

/-- A concrete pair of collaborator functions satisfying the spec's §6
contract, used to instantiate the parameterized Hebrew theorems:
odd-numbered months have 30 days, even-numbered 29. -/
def monlenC (_y m : ℕ) : ℕ := if m % 2 = 1 then 30 else 29

/-- Year length induced by `monlenC` (354 common, 384 leap). -/
def yearLenC (y : ℕ) : ℕ := HebrewDate.yearLen monlenC y

/-- Elapsed days to 1 Tishrei of year `y` for the concrete model:
anchored at `elapsedC 1 = 1`, then one year length at a time. -/
def elapsedC : ℕ → ℕ
  | 0 => 0
  | 1 => 1
  | y + 2 => elapsedC (y + 1) + yearLenC (y + 1)

theorem elapsedC_part (k : ℕ) (hk : 1 ≤ k) :
    elapsedC (k + 1) = elapsedC k + HebrewDate.yearLen monlenC k := by
  match k, hk with
  | j + 1, _ => rfl

theorem elapsedC_step (k : ℕ) : elapsedC k ≤ elapsedC (k + 1) := by
  match k with
  | 0 => decide
  | j + 1 => exact Nat.le_add_right _ _

theorem elapsedC_mono : ∀ a b : ℕ, a ≤ b → elapsedC a ≤ elapsedC b :=
  fun _ _ h => monotone_nat_of_le_succ elapsedC_step h

theorem isLeapC_period (y : ℕ) :
    HebrewDate.isLeap (y + 19) = HebrewDate.isLeap y := by
  unfold HebrewDate.isLeap
  rw [decide_eq_decide,
      show 7 * (y + 19) + 1 = 7 * y + 1 + 7 * 19 by ring,
      Nat.add_mul_mod_self_right]

theorem yearLenC_period (y : ℕ) : yearLenC (y + 19) = yearLenC y := by
  unfold yearLenC HebrewDate.yearLen HebrewDate.monthsList
  rw [isLeapC_period]
  rfl

theorem elapsedC_add19 : ∀ y : ℕ, 1 ≤ y → elapsedC (y + 19) = elapsedC y + 6936 := by
  intro y hy
  induction y, hy using Nat.le_induction with
  | base => decide
  | succ j hj ih =>
      rw [show j + 1 + 19 = (j + 19) + 1 by omega,
          elapsedC_part (j + 19) (by omega), elapsedC_part j hj,
          show HebrewDate.yearLen monlenC (j + 19) = yearLenC (j + 19) from rfl,
          yearLenC_period j, ih]
      unfold yearLenC
      omega

theorem elapsedC_grow : ∀ k : ℕ, 365 * (k + 1) ≤ elapsedC (k + 3) := by
  intro k
  induction k using Nat.strong_induction_on with
  | _ k ih =>
      rcases Nat.lt_or_ge k 19 with h | h
      · interval_cases k <;> decide
      · have ih' := ih (k - 19) (by omega)
        have hp := elapsedC_add19 (k - 19 + 3) (by omega)
        rw [show k + 3 = k - 19 + 3 + 19 by omega]
        omega

/-- A date object of any of the module's three kinds, as handled
uniformly by the `BaseDate` operators. -/
inductive DateObj where
  | jul (day : ℚ)
  | greg (o : GregObj)
  | heb (o : HebObj)
deriving DecidableEq

namespace DateObj

/-- The `jd` property: `JulianDay.day` directly; for the calendar kinds
the cached `_jd` when present, else the computed formula.  (For a
`HebrewDate` whose month is missing from its traversal list the source
would leave `_jd` as `None`; the model returns `0` there — the case is
excluded for every validated object.) -/
def jd (elapsed : ℕ → ℕ) (monlen : ℕ → ℕ → ℕ) : DateObj → ℚ
  | jul day => day
  | greg o => o.cjd.getD (GregorianDate.jdQ o.year o.month o.day)
  | heb o => o.cjd.getD ((HebrewDate.jdQ elapsed monlen o.year o.month o.day).getD 0)

/-- `JulianDay._to_x`: dispatch back to the argument's kind. -/
def toX (elapsed : ℕ → ℕ) (monlen : ℕ → ℕ → ℕ) (day : ℚ) :
    DateObj → Except String (Option DateObj)
  | jul _ => .ok (some (jul day))
  | greg _ => (JulianDay.to_greg day).map fun o => some (greg o)
  | heb _ => (JulianDay.to_heb elapsed monlen day).map (Option.map heb)

/-- `BaseDate.__add__` with an integer: `JulianDay(self.jd + other)._to_x(self)`. -/
def add (elapsed : ℕ → ℕ) (monlen : ℕ → ℕ → ℕ) (o : DateObj) (n : ℤ) :
    Except String (Option DateObj) :=
  toX elapsed monlen (JulianDay.normalize (jd elapsed monlen o + n)) o

/-- `BaseDate.__sub__` with an integer. -/
def subInt (elapsed : ℕ → ℕ) (monlen : ℕ → ℕ → ℕ) (o : DateObj) (n : ℤ) :
    Except String (Option DateObj) :=
  toX elapsed monlen (JulianDay.normalize (jd elapsed monlen o - n)) o

/-- `BaseDate.__sub__` with another date: `abs(self.jd - other.jd)`. -/
def subDate (elapsed : ℕ → ℕ) (monlen : ℕ → ℕ → ℕ) (a b : DateObj) : ℚ :=
  |jd elapsed monlen a - jd elapsed monlen b|

/-- `BaseDate.__eq__`: underlying Julian Day values are equal. -/
def eq (elapsed : ℕ → ℕ) (monlen : ℕ → ℕ → ℕ) (a b : DateObj) : Prop :=
  jd elapsed monlen a = jd elapsed monlen b

/-- `BaseDate.__lt__`. -/
def lt (elapsed : ℕ → ℕ) (monlen : ℕ → ℕ → ℕ) (a b : DateObj) : Prop :=
  jd elapsed monlen a < jd elapsed monlen b

/-- `BaseDate.__le__`. -/
def le (elapsed : ℕ → ℕ) (monlen : ℕ → ℕ → ℕ) (a b : DateObj) : Prop :=
  jd elapsed monlen a ≤ jd elapsed monlen b

/-- `BaseDate.weekday`: `int(self.jd + .5 + 1) % 7 + 1`. -/
def weekday (elapsed : ℕ → ℕ) (monlen : ℕ → ℕ → ℕ) (o : DateObj) : ℤ :=
  pyint (jd elapsed monlen o + 1 / 2 + 1) % 7 + 1

/-- `BaseDate.shabbos`: `self + (7 - self.weekday())`. -/
def shabbos (elapsed : ℕ → ℕ) (monlen : ℕ → ℕ → ℕ) (o : DateObj) :
    Except String (Option DateObj) :=
  add elapsed monlen o (7 - weekday elapsed monlen o)

/-- Objects reachable through validated construction: fields valid and
any cached Julian Day value consistent with them. -/
def WF (elapsed : ℕ → ℕ) (monlen : ℕ → ℕ → ℕ) : DateObj → Prop
  | jul day => ∃ K : ℤ, day = (K : ℚ) + 1 / 2
  | greg o => GregorianDate.validFields o.year o.month o.day ∧
      (o.cjd = none ∨ o.cjd = some (GregorianDate.jdQ o.year o.month o.day))
  | heb o => HebrewDate.validFields monlen o.year o.month o.day ∧
      (o.cjd = none ∨
        HebrewDate.jdQ elapsed monlen o.year o.month o.day = o.cjd)

end DateObj

theorem normalize_add_int (K n : ℤ) :
    JulianDay.normalize ((K : ℚ) + 1 / 2 + (n : ℚ)) = ((K + n : ℤ) : ℚ) + 1 / 2 := by
  rw [show (K : ℚ) + 1 / 2 + (n : ℚ) = ((K + n : ℤ) : ℚ) + 1 / 2 by push_cast; ring,
      JulianDay.normalize_canonical]

theorem normalize_sub_int (K n : ℤ) :
    JulianDay.normalize ((K : ℚ) + 1 / 2 - (n : ℚ)) = ((K - n : ℤ) : ℚ) + 1 / 2 := by
  rw [show (K : ℚ) + 1 / 2 - (n : ℚ) = ((K - n : ℤ) : ℚ) + 1 / 2 by push_cast; ring,
      JulianDay.normalize_canonical]

namespace DateObj

/-- Whether the object is of the Hebrew kind. -/
def isHebKind : DateObj → Prop
  | heb _ => True
  | _ => False

instance (o : DateObj) : Decidable (isHebKind o) := by
  unfold isHebKind
  cases o <;> infer_instance

/-- Every well-formed object has a canonical (`K + 1/2`) Julian Day
value. -/
theorem WF_jd_canonical (elapsed : ℕ → ℕ) (monlen : ℕ → ℕ → ℕ) (o : DateObj)
    (hwf : WF elapsed monlen o) : ∃ K : ℤ, jd elapsed monlen o = (K : ℚ) + 1 / 2 := by
  cases o with
  | jul day => exact hwf
  | greg go =>
      obtain ⟨hv, hc⟩ := hwf
      refine ⟨GregorianDate.jdZ go.year go.month go.day, ?_⟩
      rcases hc with hc | hc <;>
        simp only [jd, hc, Option.getD_some, Option.getD_none] <;>
        exact GregorianDate.jdQ_eq_jdZ _ _ _ hv.1
  | heb ho =>
      obtain ⟨hv, hc⟩ := hwf
      have hmem : ho.month ∈ HebrewDate.monthsList ho.year := by
        rw [HebrewDate.mem_monthsList]
        obtain ⟨h1, h2, h3, h4, h5, h6⟩ := hv
        rcases Nat.lt_or_ge ho.month 13 with h | h
        · exact Or.inl ⟨h2, by omega⟩
        · refine Or.inr ⟨by omega, ?_⟩
          by_cases hl : HebrewDate.isLeap ho.year = true
          · exact hl
          · exact absurd (by omega : ho.month = 13) (h4 (by simpa using hl))
      obtain ⟨pre, hw, _, _⟩ :=
        HebrewDate.jdWalk_monthWalk (monlen ho.year) ho.month ho.day hv.2.2.2.2.1
          hv.2.2.2.2.2 (HebrewDate.monthsList ho.year) hmem (elapsed ho.year)
      have hq : HebrewDate.jdQ elapsed monlen ho.year ho.month ho.day
          = some (((elapsed ho.year + pre + (ho.day - 1) : ℕ) : ℚ) + 347996.5) := by
        unfold HebrewDate.jdQ HebrewDate.jdn
        rw [hw]
        rfl
      refine ⟨347996 + (elapsed ho.year + pre + (ho.day - 1) : ℕ), ?_⟩
      have hval : (((elapsed ho.year + pre + (ho.day - 1) : ℕ) : ℚ) + 347996.5)
          = ((347996 + (elapsed ho.year + pre + (ho.day - 1) : ℕ) : ℤ) : ℚ) + 1 / 2 := by
        push_cast
        ring_nf
      rcases hc with hc | hc
      · simp only [jd, hc, Option.getD_none, hq, Option.getD_some]
        exact hval
      · rw [hq] at hc
        simp only [jd, ← hc, Option.getD_some]
        exact hval

/-- For a well-formed Hebrew object the Julian Day value sits strictly
after the epoch guard, provided the collaborator anchors year 1 at
day 1. -/
theorem WF_jd_heb (elapsed : ℕ → ℕ) (monlen : ℕ → ℕ → ℕ)
    (hmono : ∀ a b : ℕ, a ≤ b → elapsed a ≤ elapsed b)
    (hep1 : 1 ≤ elapsed 1) (ho : HebObj)
    (hwf : WF elapsed monlen (heb ho)) :
    ∃ N : ℕ, 1 ≤ N ∧
      jd elapsed monlen (heb ho) = ((347996 + N : ℤ) : ℚ) + 1 / 2 := by
  obtain ⟨hv, hc⟩ := hwf
  have hmem : ho.month ∈ HebrewDate.monthsList ho.year := by
    rw [HebrewDate.mem_monthsList]
    obtain ⟨h1, h2, h3, h4, h5, h6⟩ := hv
    rcases Nat.lt_or_ge ho.month 13 with h | h
    · exact Or.inl ⟨h2, by omega⟩
    · refine Or.inr ⟨by omega, ?_⟩
      by_cases hl : HebrewDate.isLeap ho.year = true
      · exact hl
      · exact absurd (by omega : ho.month = 13) (h4 (by simpa using hl))
  obtain ⟨pre, hw, _, _⟩ :=
    HebrewDate.jdWalk_monthWalk (monlen ho.year) ho.month ho.day hv.2.2.2.2.1
      hv.2.2.2.2.2 (HebrewDate.monthsList ho.year) hmem (elapsed ho.year)
  have hq : HebrewDate.jdQ elapsed monlen ho.year ho.month ho.day
      = some (((elapsed ho.year + pre + (ho.day - 1) : ℕ) : ℚ) + 347996.5) := by
    unfold HebrewDate.jdQ HebrewDate.jdn
    rw [hw]
    rfl
  have hN1 : 1 ≤ elapsed ho.year + pre + (ho.day - 1) := by
    have := hmono 1 ho.year hv.1
    omega
  refine ⟨elapsed ho.year + pre + (ho.day - 1), hN1, ?_⟩
  have hval : (((elapsed ho.year + pre + (ho.day - 1) : ℕ) : ℚ) + 347996.5)
      = ((347996 + (elapsed ho.year + pre + (ho.day - 1) : ℕ) : ℤ) : ℚ) + 1 / 2 := by
    push_cast
    ring_nf
  rcases hc with hc | hc
  · simp only [jd, hc, Option.getD_none, hq, Option.getD_some]
    exact hval
  · rw [hq] at hc
    simp only [jd, ← hc, Option.getD_some]
    exact hval

end DateObj

namespace DateObj

/-- `__add__` with an integer on a canonical Julian Day value: total for
the Julian and Gregorian kinds, and for the Hebrew kind whenever the
target stays past the epoch guard; the result is of the same kind and
carries the shifted Julian Day value. -/
theorem add_total (elapsed : ℕ → ℕ) (monlen : ℕ → ℕ → ℕ)
    (hmono : ∀ a b : ℕ, a ≤ b → elapsed a ≤ elapsed b)
    (hpart : ∀ k, 1 ≤ k → elapsed (k + 1) = elapsed k + HebrewDate.yearLen monlen k)
    (hepoch1 : elapsed 1 ≤ 1)
    (hgrow : ∀ k, 365 * (k + 1) ≤ elapsed (k + 3))
    (o : DateObj) (K n : ℤ)
    (hjd : jd elapsed monlen o = (K : ℚ) + 1 / 2)
    (hheb : isHebKind o → 347997 ≤ K + n) :
    ∃ o1 : DateObj, add elapsed monlen o n = .ok (some o1) ∧
      jd elapsed monlen o1 = ((K + n : ℤ) : ℚ) + 1 / 2 ∧
      (isHebKind o1 ↔ isHebKind o) := by
  cases o with
  | jul day =>
      refine ⟨jul (((K + n : ℤ) : ℚ) + 1 / 2), ?_, rfl, Iff.rfl⟩
      unfold add
      rw [hjd, normalize_add_int]
      rfl
  | greg go =>
      refine ⟨greg ⟨JulianDay.fvfYear (K + n + 1), JulianDay.fvfMonth (K + n + 1),
        JulianDay.fvfDay (K + n + 1), some (((K + n : ℤ) : ℚ) + 1 / 2)⟩, ?_, rfl, Iff.rfl⟩
      unfold add
      rw [hjd, normalize_add_int]
      simp only [toX]
      rw [JulianDay.to_greg_canonical (K + n)]
      rfl
  | heb ho =>
      obtain ⟨ho1, hok, _, hcjd⟩ :=
        (JulianDay.to_heb_domain elapsed monlen hmono hpart hepoch1 hgrow (K + n)).2
          (hheb trivial)
      refine ⟨heb ho1, ?_, ?_, Iff.rfl⟩
      · unfold add
        rw [hjd, normalize_add_int]
        simp only [toX]
        rw [hok]
        rfl
      · simp only [jd, hcjd, Option.getD_some]

/-- `__sub__` with an integer, same shape as `add_total`. -/
theorem sub_total (elapsed : ℕ → ℕ) (monlen : ℕ → ℕ → ℕ)
    (hmono : ∀ a b : ℕ, a ≤ b → elapsed a ≤ elapsed b)
    (hpart : ∀ k, 1 ≤ k → elapsed (k + 1) = elapsed k + HebrewDate.yearLen monlen k)
    (hepoch1 : elapsed 1 ≤ 1)
    (hgrow : ∀ k, 365 * (k + 1) ≤ elapsed (k + 3))
    (o : DateObj) (K n : ℤ)
    (hjd : jd elapsed monlen o = (K : ℚ) + 1 / 2)
    (hheb : isHebKind o → 347997 ≤ K - n) :
    ∃ o1 : DateObj, subInt elapsed monlen o n = .ok (some o1) ∧
      jd elapsed monlen o1 = ((K - n : ℤ) : ℚ) + 1 / 2 ∧
      (isHebKind o1 ↔ isHebKind o) := by
  cases o with
  | jul day =>
      refine ⟨jul (((K - n : ℤ) : ℚ) + 1 / 2), ?_, rfl, Iff.rfl⟩
      unfold subInt
      rw [hjd, normalize_sub_int]
      rfl
  | greg go =>
      refine ⟨greg ⟨JulianDay.fvfYear (K - n + 1), JulianDay.fvfMonth (K - n + 1),
        JulianDay.fvfDay (K - n + 1), some (((K - n : ℤ) : ℚ) + 1 / 2)⟩, ?_, rfl, Iff.rfl⟩
      unfold subInt
      rw [hjd, normalize_sub_int]
      simp only [toX]
      rw [JulianDay.to_greg_canonical (K - n)]
      rfl
  | heb ho =>
      obtain ⟨ho1, hok, _, hcjd⟩ :=
        (JulianDay.to_heb_domain elapsed monlen hmono hpart hepoch1 hgrow (K - n)).2
          (hheb trivial)
      refine ⟨heb ho1, ?_, ?_, Iff.rfl⟩
      · unfold subInt
        rw [hjd, normalize_sub_int]
        simp only [toX]
        rw [hok]
        rfl
      · simp only [jd, hcjd, Option.getD_some]

end DateObj

namespace DateObj

/-- `weekday` on a canonical Julian Day value `K + 1/2` is
`(K + 2) % 7 + 1`. -/
theorem weekday_canonical (elapsed : ℕ → ℕ) (monlen : ℕ → ℕ → ℕ) (o : DateObj)
    (K : ℤ) (hjd : jd elapsed monlen o = (K : ℚ) + 1 / 2) :
    weekday elapsed monlen o = (K + 2) % 7 + 1 := by
  unfold weekday
  rw [hjd, show (K : ℚ) + 1 / 2 + 1 / 2 + 1 = ((K + 2 : ℤ) : ℚ) by push_cast; ring,
      pyint_intCast]

/-- `shabbos` succeeds (for the Hebrew kind: whenever the date is past
the epoch guard), lands on weekday 7, and is the identity on dates that
already fall on weekday 7. -/
theorem shabbos_total (elapsed : ℕ → ℕ) (monlen : ℕ → ℕ → ℕ)
    (hmono : ∀ a b : ℕ, a ≤ b → elapsed a ≤ elapsed b)
    (hpart : ∀ k, 1 ≤ k → elapsed (k + 1) = elapsed k + HebrewDate.yearLen monlen k)
    (hepoch1 : elapsed 1 ≤ 1)
    (hgrow : ∀ k, 365 * (k + 1) ≤ elapsed (k + 3))
    (o : DateObj) (K : ℤ)
    (hjd : jd elapsed monlen o = (K : ℚ) + 1 / 2)
    (hheb : isHebKind o → 347997 ≤ K) :
    ∃ r : DateObj, shabbos elapsed monlen o = .ok (some r) ∧
      weekday elapsed monlen r = 7 ∧
      (weekday elapsed monlen o = 7 → eq elapsed monlen r o) := by
  have hw := weekday_canonical elapsed monlen o K hjd
  obtain ⟨r, hok, hjdr, _⟩ :=
    add_total elapsed monlen hmono hpart hepoch1 hgrow o K
      (7 - weekday elapsed monlen o) hjd (fun h => by have := hheb h; omega)
  refine ⟨r, hok, ?_, ?_⟩
  · rw [weekday_canonical elapsed monlen r _ hjdr, hw]
    omega
  · intro h7
    rw [hw] at h7
    unfold eq
    rw [hjdr, hjd, hw]
    rw [show K + (7 - ((K + 2) % 7 + 1)) = K by omega]

end DateObj

/-- The renderings produced by `HebrewDate.__format__`'s directive
branches; each is an abstract string supplied by collaborators
(`gematria`, `utils.WEEKDAYS`, `strftime`, field formatting), so the
interpreter is parameterized over them. -/
structure Renders where
  hebrewDayPlain : String
  numToStrWeekday : String
  weekdaysName : String
  hebrewDay : String
  monthNameTrue : String
  hebrewYear : Bool → String
  dayStr : String
  monthStr : String
  strftimeA : Char → String
  weekdayStr : String
  day02 : String
  monthNameFalse : String
  month02 : String
  strftimeY : Char → String


/-- The five scanner positions of `HebrewDate.__format__`'s handler:
the top of the `while` loop, and the positions right after consuming
`%`, `%*`, `%-`, `%*-` (each an `i += 1` /
`try: curr = fmt[i] except IndexError` point in the source). -/
inductive FState where
  | literal
  | afterPct
  | afterStarS
  | afterDashS
  | afterStarDashS
deriving DecidableEq

/-- `HebrewDate.__format__`, translated branch for branch from the
source's `while` loop over the format string; the `FState` argument is
the current handler position (`curr.casefold() == 'y'` on a single
character is the case-insensitive match `'y'`/`'Y'`). -/
def formatWalk (R : Renders) : FState → List Char → Except String String
  | .literal, [] => .ok ""
  | .literal, c :: rest =>
      if c = '%' then formatWalk R .afterPct rest
      else (formatWalk R .literal rest).map fun s => String.singleton c ++ s
  | .afterPct, [] => .error "Format string cannot end with single percent."
  | .afterPct, curr :: rest =>
      if curr = '%' then (formatWalk R .literal rest).map fun s => "%" ++ s
      else if curr = '*' then formatWalk R .afterStarS rest
      else if curr = '-' then formatWalk R .afterDashS rest
      else if curr = 'a' ∨ curr = 'A' then
        (formatWalk R .literal rest).map fun s => R.strftimeA curr ++ s
      else if curr = 'w' then
        (formatWalk R .literal rest).map fun s => R.weekdayStr ++ s
      else if curr = 'd' then
        (formatWalk R .literal rest).map fun s => R.day02 ++ s
      else if curr = 'B' then
        (formatWalk R .literal rest).map fun s => R.monthNameFalse ++ s
      else if curr = 'm' then
        (formatWalk R .literal rest).map fun s => R.month02 ++ s
      else if curr = 'y' ∨ curr = 'Y' then
        (formatWalk R .literal rest).map fun s => R.strftimeY curr ++ s
      else .error "Invalid format string."
  | .afterStarS, [] => .error "Format string cannot end with percent-star."
  | .afterStarS, curr :: rest =>
      if curr = '-' then formatWalk R .afterStarDashS rest
      else if curr = 'a' then
        (formatWalk R .literal rest).map fun s => R.numToStrWeekday ++ s
      else if curr = 'A' then
        (formatWalk R .literal rest).map fun s => R.weekdaysName ++ s
      else if curr = 'd' then
        (formatWalk R .literal rest).map fun s => R.hebrewDay ++ s
      else if curr = 'B' then
        (formatWalk R .literal rest).map fun s => R.monthNameTrue ++ s
      else if curr = 'y' ∨ curr = 'Y' then
        (formatWalk R .literal rest).map fun s => R.hebrewYear (curr = 'Y') ++ s
      else .error "Invalid format string."
  | .afterDashS, [] => .error "Format string cannot end with percent-dash."
  | .afterDashS, curr :: rest =>
      if curr = 'd' then (formatWalk R .literal rest).map fun s => R.dayStr ++ s
      else if curr = 'm' then
        (formatWalk R .literal rest).map fun s => R.monthStr ++ s
      else .error "Invalid format string."
  | .afterStarDashS, [] => .error "Format string cannot end with percent-star-dash."
  | .afterStarDashS, curr :: rest =>
      if curr = 'd' then
        (formatWalk R .literal rest).map fun s => R.hebrewDayPlain ++ s
      else .error "Invalid format string."

/-- Claim-side scanner, following the claim's words: acceptance of a
format string by the directive grammar — every `%` must be followed by
a recognized directive body, and the string must not end inside a
`%`, `%*`, `%-` or `%*-` prefix. -/
def goodStep : FState → List Char → Bool
  | .literal, [] => true
  | .literal, c :: r =>
      if c = '%' then goodStep .afterPct r else goodStep .literal r
  | .afterPct, [] => false
  | .afterPct, c :: r =>
      if c = '%' then goodStep .literal r
      else if c = '*' then goodStep .afterStarS r
      else if c = '-' then goodStep .afterDashS r
      else if c = 'a' ∨ c = 'A' ∨ c = 'w' ∨ c = 'd' ∨ c = 'B' ∨ c = 'm'
          ∨ c = 'y' ∨ c = 'Y' then goodStep .literal r
      else false
  | .afterStarS, [] => false
  | .afterStarS, c :: r =>
      if c = '-' then goodStep .afterStarDashS r
      else if c = 'a' ∨ c = 'A' ∨ c = 'd' ∨ c = 'B' ∨ c = 'y' ∨ c = 'Y' then
        goodStep .literal r
      else false
  | .afterDashS, [] => false
  | .afterDashS, c :: r =>
      if c = 'd' ∨ c = 'm' then goodStep .literal r else false
  | .afterStarDashS, [] => false
  | .afterStarDashS, c :: r =>
      if c = 'd' then goodStep .literal r else false

theorem map_ok_iff (f : String → String) (e : Except String String) :
    (∃ s, e.map f = .ok s) ↔ ∃ s, e = .ok s := by
  cases e <;> simp [Except.map]

set_option maxHeartbeats 2000000 in
/-- The source scanner accepts exactly the strings accepted by the
claim-side grammar, at every handler position. -/
theorem walk_ok_iff (R : Renders) (fmt : List Char) : ∀ st : FState,
    ((∃ s, formatWalk R st fmt = .ok s) ↔ goodStep st fmt = true) := by
  induction fmt with
  | nil => intro st; cases st <;> simp [formatWalk, goodStep]
  | cons c r ih =>
      intro st
      cases st <;>
        · simp only [formatWalk, goodStep]
          split_ifs <;>
            first
            | (exfalso; tauto)
            | exact ih _
            | (rw [map_ok_iff]; exact ih _)
            | simp

namespace Main

/-- `main.py`'s inner `hebrew_leap`: `(((year*7)+1) % 19) < 7`. -/
def hebrew_leap (year : ℤ) : Bool := (year * 7 + 1) % 19 < 7

/-- `BaseDate.__eq__` applied to an `int`: the source returns `True`
only when `isinstance(other, BaseDate) and self.jd == other.jd`; an
`int` is not a `BaseDate`, so the comparison is always `False`. -/
def hebEqInt (_o : HebObj) (_n : ℤ) : Bool := false

/-- `main.py`'s inner `hebrew_month`: the branch chain over `htoday`.
Months 1–10 test `htoday.month == k`; the last three branches test
`htoday == k` (the date object itself against an `int`).  A fall
through every branch is Python's implicit `return None`.  (The
`htoday.hebrew_leap(...)` call inside the dead `== 12` branch would
itself raise `AttributeError`; it is modelled by the sibling
`hebrew_leap` since the branch is unreachable.) -/
def hebrew_month (htoday : HebObj) : Option String :=
  if htoday.month = 1 then some "Nisan"
  else if htoday.month = 2 then some "Iyyar"
  else if htoday.month = 3 then some "Sivan"
  else if htoday.month = 4 then some "Tammuz"
  else if htoday.month = 5 then some "Av"
  else if htoday.month = 6 then some "Elul"
  else if htoday.month = 7 then some "Tishri"
  else if htoday.month = 8 then some "Heshvan"
  else if htoday.month = 9 then some "Kislev"
  else if htoday.month = 10 then some "Teveth"
  else if hebEqInt htoday 11 then some "Shevat"
  else if hebEqInt htoday 12 then
    (if hebrew_leap htoday.year then some "Adar I" else some "Adar")
  else if hebEqInt htoday 13 then some "Adar II"
  else none

end Main

namespace JulianDay

/-- Claim-side normalization, following the claim's words: fractional
part below one half rounds to `floor(raw) - 1/2`, otherwise to
`floor(raw) + 1/2`. -/
def specNormalize (raw : ℚ) : ℚ :=
  if raw - ⌊raw⌋ < 1 / 2 then (⌊raw⌋ : ℚ) - 1 / 2 else (⌊raw⌋ : ℚ) + 1 / 2

end JulianDay

/-- C1 (amended).  Gregorian round-trip for positive years: for every
valid `(year, month, day)` with `1 ≤ year ≤ 9999`, `JulianDay.to_greg`
applied to `GregorianDate.jd` returns exactly the original fields.
(The original claim also asserted this for negative years, which is
refuted by `C1_counterexample`.) -/
theorem C1_greg_roundtrip (y m d : ℤ) (hy : 1 ≤ y) (_hy2 : y ≤ 9999)
    (hv : GregorianDate.validFields y m d) :
    ∃ o : GregObj, JulianDay.to_greg (GregorianDate.jdQ y m d) = .ok o ∧
      o.year = y ∧ o.month = m ∧ o.day = d :=
  ⟨⟨y, m, d, some (GregorianDate.jdQ y m d)⟩,
    JulianDay.to_greg_jdQ y m d hy hv, rfl, rfl, rfl⟩

theorem C1_greg_roundtrip_witness :
    1 ≤ (2020 : ℤ) ∧ (2020 : ℤ) ≤ 9999 ∧ GregorianDate.validFields 2020 12 11 ∧
    ∃ o : GregObj, JulianDay.to_greg (GregorianDate.jdQ 2020 12 11) = .ok o ∧
      o.year = 2020 ∧ o.month = 12 ∧ o.day = 11 :=
  ⟨by decide, by decide, by decide,
    C1_greg_roundtrip 2020 12 11 (by decide) (by decide) (by decide)⟩

/-- C1 counterexample: the valid Gregorian date `(-1, 1, 1)` (in the
claimed range, year ≠ 0) round-trips to `(-1, 1, 2)`, because
`int(365.25 * year)` truncates toward zero for BCE years. -/
theorem C1_counterexample :
    GregorianDate.validFields (-1) 1 1 ∧
    ∃ o : GregObj, JulianDay.to_greg (GregorianDate.jdQ (-1) 1 1) = .ok o ∧
      o.year = -1 ∧ o.month = 1 ∧ o.day = 2 ∧ ¬ o.day = 1 := by
  have hz : GregorianDate.jdZ (-1) 1 1 = 1721060 := by decide
  have hq : GregorianDate.jdQ (-1) 1 1 = ((1721060 : ℤ) : ℚ) + 1 / 2 := by
    rw [GregorianDate.jdQ_eq_jdZ _ _ _ (by norm_num), hz]
  refine ⟨by decide, ⟨JulianDay.fvfYear (1721060 + 1), JulianDay.fvfMonth (1721060 + 1),
    JulianDay.fvfDay (1721060 + 1), some (((1721060 : ℤ) : ℚ) + 1 / 2)⟩, ?_,
    by decide, by decide, by decide, by decide⟩
  rw [hq]
  exact JulianDay.to_greg_canonical 1721060

/-- C2 (confirmed; spec-modelled collaborators).  Hebrew round-trip:
for every valid Hebrew `(year, month, day)` with `year ≤ 6000`, under
the specification's contract for the external collaborators
(`elapsedDaysToYear` partitioning years, monotone, anchoring year 1 at
day 1 and dominating 365-day years), `JulianDay.to_heb` applied to
`HebrewDate.jd` returns exactly the original fields. -/
theorem C2_hebrew_roundtrip (elapsed : ℕ → ℕ) (monlen : ℕ → ℕ → ℕ) (y m d : ℕ)
    (hv : HebrewDate.validFields monlen y m d) (_hy : y ≤ 6000)
    (hmono : ∀ a b : ℕ, a ≤ b → elapsed a ≤ elapsed b)
    (hpart : elapsed (y + 1) = elapsed y + HebrewDate.yearLen monlen y)
    (hest : 365 * (y - 2) ≤ elapsed y)
    (hepoch : 1 ≤ elapsed 1) :
    ∃ q, HebrewDate.jdQ elapsed monlen y m d = some q ∧
      ∃ o : HebObj, JulianDay.to_heb elapsed monlen q = .ok (some o) ∧
        o.year = y ∧ o.month = m ∧ o.day = d := by
  obtain ⟨q, h1, h2⟩ :=
    HebrewDate.jd_to_heb_roundtrip elapsed monlen y m d hv hmono hpart hest hepoch
  exact ⟨q, h1, ⟨y, m, d, some q⟩, h2, rfl, rfl, rfl⟩

theorem C2_hebrew_roundtrip_witness :
    HebrewDate.validFields monlenC 3 13 30 ∧
    ∃ q, HebrewDate.jdQ elapsedC monlenC 3 13 30 = some q ∧
      ∃ o : HebObj, JulianDay.to_heb elapsedC monlenC q = .ok (some o) ∧
        o.year = 3 ∧ o.month = 13 ∧ o.day = 30 :=
  ⟨by decide,
    C2_hebrew_roundtrip elapsedC monlenC 3 13 30 (by decide) (by decide)
      elapsedC_mono (elapsedC_part 3 (by decide)) (by decide) (by decide)⟩

/-- C3 (amended).  Julian Day normalization: the claimed floor-based
canonical form holds for every non-negative input, but for negative
inputs the constructor truncates toward zero, always yielding
`ceil(raw) - 1/2` (refuting the claimed floor form there, see
`C3_counterexample`). -/
theorem C3_normalize (raw : ℚ) :
    (0 ≤ raw → JulianDay.normalize raw = JulianDay.specNormalize raw) ∧
    (raw < 0 → JulianDay.normalize raw = (⌈raw⌉ : ℚ) - 1 / 2) := by
  constructor
  · intro h
    unfold JulianDay.normalize JulianDay.specNormalize
    rw [pyint_eq]
    simp only [if_pos h]
  · intro h
    unfold JulianDay.normalize
    rw [pyint_eq, if_neg (not_le.mpr h),
        if_pos (by have := Int.le_ceil raw; linarith)]

theorem C3_normalize_witness :
    (0 ≤ (27 / 10 : ℚ) ∧
      JulianDay.normalize (27 / 10) = JulianDay.specNormalize (27 / 10)) ∧
    ((-27 / 10 : ℚ) < 0 ∧
      JulianDay.normalize (-27 / 10) = (⌈(-27 / 10 : ℚ)⌉ : ℚ) - 1 / 2) :=
  ⟨⟨by norm_num, (C3_normalize (27 / 10)).1 (by norm_num)⟩,
   ⟨by norm_num, (C3_normalize (-27 / 10)).2 (by norm_num)⟩⟩

/-- C3 counterexample: at `raw = -2.7` the constructor stores `-2.5`
(truncation toward zero), while the claimed floor form demands
`-3.5`. -/
theorem C3_counterexample :
    JulianDay.normalize (-27 / 10) = -5 / 2 ∧
    JulianDay.specNormalize (-27 / 10) = -7 / 2 ∧
    JulianDay.normalize (-27 / 10) ≠ JulianDay.specNormalize (-27 / 10) := by
  have hc : ⌈(-27 / 10 : ℚ)⌉ = -2 := by
    rw [Int.ceil_eq_iff]
    constructor <;> norm_num
  have hf : ⌊(-27 / 10 : ℚ)⌋ = -3 := by
    rw [Int.floor_eq_iff]
    constructor <;> norm_num
  have hpy : pyint (-27 / 10 : ℚ) = -2 := by
    rw [pyint_eq, if_neg (show ¬ (0 : ℚ) ≤ -27 / 10 by norm_num), hc]
  have h1 : JulianDay.normalize (-27 / 10) = -5 / 2 := by
    unfold JulianDay.normalize
    rw [hpy]
    norm_num
  have h2 : JulianDay.specNormalize (-27 / 10) = -7 / 2 := by
    unfold JulianDay.specNormalize
    rw [hf]
    norm_num
  refine ⟨h1, h2, ?_⟩
  rw [h1, h2]
  norm_num

/-- C4 (confirmed; spec-modelled collaborators).  Hebrew epoch domain
error: on a canonical Julian Day value `K + 1/2`, `to_heb` raises the
domain error exactly when the value precedes the epoch constant
`347997` (`K ≤ 347996`), and succeeds with a Hebrew date for every
value past it (`K ≥ 347997`). -/
theorem C4_epoch_domain (elapsed : ℕ → ℕ) (monlen : ℕ → ℕ → ℕ)
    (hmono : ∀ a b : ℕ, a ≤ b → elapsed a ≤ elapsed b)
    (hpart : ∀ k, 1 ≤ k → elapsed (k + 1) = elapsed k + HebrewDate.yearLen monlen k)
    (hep : elapsed 1 = 1)
    (hgrow : ∀ k, 365 * (k + 1) ≤ elapsed (k + 3))
    (K : ℤ) :
    (K ≤ 347996 →
      JulianDay.to_heb elapsed monlen ((K : ℚ) + 1 / 2) =
        .error "Date is before creation") ∧
    (347997 ≤ K →
      ∃ o : HebObj, JulianDay.to_heb elapsed monlen ((K : ℚ) + 1 / 2) =
        .ok (some o)) := by
  obtain ⟨he, hs⟩ :=
    JulianDay.to_heb_domain elapsed monlen hmono hpart (le_of_eq hep) hgrow K
  refine ⟨he, fun h => ?_⟩
  obtain ⟨o, ho, -, -⟩ := hs h
  exact ⟨o, ho⟩

theorem C4_epoch_domain_witness :
    ((347996 : ℤ) ≤ 347996 ∧
      JulianDay.to_heb elapsedC monlenC (((347996 : ℤ) : ℚ) + 1 / 2) =
        .error "Date is before creation") ∧
    ((347997 : ℤ) ≤ 347997 ∧
      ∃ o : HebObj, JulianDay.to_heb elapsedC monlenC (((347997 : ℤ) : ℚ) + 1 / 2) =
        .ok (some o)) :=
  ⟨⟨by decide,
    (C4_epoch_domain elapsedC monlenC elapsedC_mono elapsedC_part rfl
      elapsedC_grow 347996).1 (by decide)⟩,
   ⟨by decide,
    (C4_epoch_domain elapsedC monlenC elapsedC_mono elapsedC_part rfl
      elapsedC_grow 347997).2 (by decide)⟩⟩

/-- C5 (amended).  Day-arithmetic identity `(date + n) - n == date` for
all three kinds — unconditionally for `JulianDay` and `GregorianDate`
objects, and for `HebrewDate` objects whenever the shifted value stays
past the Hebrew epoch guard.  (The original unconditional Hebrew claim
is refuted by `C5_counterexample`: a large negative `n` makes the
intermediate conversion raise.) -/
theorem C5_add_sub_identity (elapsed : ℕ → ℕ) (monlen : ℕ → ℕ → ℕ)
    (hmono : ∀ a b : ℕ, a ≤ b → elapsed a ≤ elapsed b)
    (hpart : ∀ k, 1 ≤ k → elapsed (k + 1) = elapsed k + HebrewDate.yearLen monlen k)
    (hep : elapsed 1 = 1)
    (hgrow : ∀ k, 365 * (k + 1) ≤ elapsed (k + 3))
    (o : DateObj) (hwf : DateObj.WF elapsed monlen o) (n : ℤ)
    (hn : DateObj.isHebKind o → (347997 : ℚ) < DateObj.jd elapsed monlen o + n) :
    ∃ o1 o2 : DateObj, DateObj.add elapsed monlen o n = .ok (some o1) ∧
      DateObj.subInt elapsed monlen o1 n = .ok (some o2) ∧
      DateObj.eq elapsed monlen o2 o := by
  obtain ⟨K, hjd⟩ := DateObj.WF_jd_canonical elapsed monlen o hwf
  have hKheb : DateObj.isHebKind o → 347997 ≤ K := by
    intro h
    cases o with
    | jul day => exact h.elim
    | greg go => exact h.elim
    | heb ho =>
        obtain ⟨N, hN1, hjd2⟩ :=
          DateObj.WF_jd_heb elapsed monlen hmono (le_of_eq hep.symm) ho hwf
        have hcast : (K : ℚ) = ((347996 + N : ℤ) : ℚ) := by
          rw [hjd2] at hjd
          linarith
        have : K = 347996 + (N : ℤ) := by exact_mod_cast hcast
        omega
  have hKn : DateObj.isHebKind o → 347997 ≤ K + n := by
    intro h
    have h1 := hn h
    rw [hjd] at h1
    have h2 : (347996 : ℚ) < ((K + n : ℤ) : ℚ) := by push_cast; linarith
    have h3 : (347996 : ℤ) < K + n := by exact_mod_cast h2
    omega
  obtain ⟨o1, ha, hjd1, hk1⟩ :=
    DateObj.add_total elapsed monlen hmono hpart (le_of_eq hep) hgrow o K n hjd hKn
  obtain ⟨o2, hs, hjd2, -⟩ :=
    DateObj.sub_total elapsed monlen hmono hpart (le_of_eq hep) hgrow o1 (K + n) n
      hjd1 (fun h => by have := hKheb (hk1.mp h); omega)
  refine ⟨o1, o2, ha, hs, ?_⟩
  unfold DateObj.eq
  rw [hjd2, hjd, show K + n - n = K by ring]

theorem C5_add_sub_identity_witness :
    ∃ o1 o2 : DateObj, DateObj.add elapsedC monlenC (.jul (1 / 2)) 5 = .ok (some o1) ∧
      DateObj.subInt elapsedC monlenC o1 5 = .ok (some o2) ∧
      DateObj.eq elapsedC monlenC o2 (.jul (1 / 2)) :=
  C5_add_sub_identity elapsedC monlenC elapsedC_mono elapsedC_part rfl elapsedC_grow
    (.jul (1 / 2)) ⟨0, by norm_num⟩ 5 (fun h => h.elim)

/-- C5 counterexample: for the valid Hebrew date `(2, 7, 1)` (under the
concrete collaborator model) and `n = -1000`, `date + n` already
raises the before-creation error, so `(date + n) - n` is not the
original date. -/
theorem C5_counterexample :
    DateObj.WF elapsedC monlenC (.heb ⟨2, 7, 1, none⟩) ∧
    DateObj.add elapsedC monlenC (.heb ⟨2, 7, 1, none⟩) (-1000) =
      .error "Date is before creation" := by
  constructor
  · exact ⟨by decide, Or.inl rfl⟩
  · have hn : HebrewDate.jdn elapsedC monlenC 2 7 1 = some 355 := by decide
    have hq : HebrewDate.jdQ elapsedC monlenC 2 7 1 = some ((355 : ℚ) + 347996.5) := by
      unfold HebrewDate.jdQ
      rw [hn]
      rfl
    have hjd : DateObj.jd elapsedC monlenC (.heb ⟨2, 7, 1, none⟩)
        = ((348351 : ℤ) : ℚ) + 1 / 2 := by
      simp only [DateObj.jd, Option.getD_none, hq, Option.getD_some]
      push_cast
      ring_nf
    unfold DateObj.add
    rw [hjd, normalize_add_int]
    simp only [DateObj.toX]
    rw [(JulianDay.to_heb_domain elapsedC monlenC elapsedC_mono elapsedC_part
        (by decide) elapsedC_grow (348351 + -1000)).1 (by decide)]
    rfl

/-- C6 (confirmed).  Construction validation: `GregorianDate.__init__`
fails exactly when the month is outside 1..12 or the day outside
1..monthlength, `HebrewDate.__init__` fails exactly when the year is
below 1, the month outside 1..13, the month 13 in a non-leap year, or
the day outside 1..monthlength; otherwise each returns the object. -/
theorem C6_construction_validation :
    (∀ (y m d : ℤ) (c : Option ℚ),
      ((∃ e, GregorianDate.mk' y m d c = .error e) ↔
        (m < 1 ∨ 12 < m ∨ d < 1 ∨ GregorianDate.monthlength y m < d)) ∧
      ((∃ o, GregorianDate.mk' y m d c = .ok o) ↔
        (1 ≤ m ∧ m ≤ 12 ∧ 1 ≤ d ∧ d ≤ GregorianDate.monthlength y m))) ∧
    (∀ (monlen : ℕ → ℕ → ℕ) (y m d : ℕ) (c : Option ℚ),
      ((∃ e, HebrewDate.mk' monlen y m d c = .error e) ↔
        (y < 1 ∨ m < 1 ∨ 13 < m ∨ (HebrewDate.isLeap y = false ∧ m = 13) ∨
          d < 1 ∨ monlen y m < d)) ∧
      ((∃ o, HebrewDate.mk' monlen y m d c = .ok o) ↔
        HebrewDate.validFields monlen y m d)) := by
  constructor
  · intro y m d c
    unfold GregorianDate.mk'
    split_ifs with h1 h2 <;> constructor <;> simp <;> omega
  · intro monlen y m d c
    unfold HebrewDate.mk' HebrewDate.validFields
    cases hL : HebrewDate.isLeap y <;>
      · split_ifs with h1 h2 h3 h4 <;> constructor <;> simp_all <;> omega

/-- C7 (confirmed).  Format error conditions: the `__format__` scanner
fails exactly when the directive grammar rejects the string — an
unrecognized character after a `%`, `%*`, `%-` or `%*-` prefix, or the
string ending right after one of these prefixes; `%%` emits a literal
`%`, and any character outside a directive is copied unchanged. -/
theorem C7_format_errors (R : Renders) (fmt : List Char) :
    ((∃ e, formatWalk R .literal fmt = .error e) ↔ goodStep .literal fmt = false) ∧
    (∀ rest, formatWalk R .literal ('%' :: '%' :: rest) =
      (formatWalk R .literal rest).map fun s => "%" ++ s) ∧
    (∀ c rest, ¬ c = '%' → formatWalk R .literal (c :: rest) =
      (formatWalk R .literal rest).map fun s => String.singleton c ++ s) := by
  refine ⟨?_, ?_, ?_⟩
  · have h := walk_ok_iff R fmt .literal
    cases hx : formatWalk R FState.literal fmt with
    | error e =>
        rw [hx] at h
        simp at h ⊢
        exact h
    | ok s =>
        rw [hx] at h
        simp at h ⊢
        simp [h]
  · intro rest
    simp [formatWalk]
  · intro c rest hc
    simp [formatWalk, hc]

theorem C7_format_errors_witness :
    ¬ ('a' = '%') ∧
    formatWalk ⟨"", "", "", "", "", fun _ => "", "", "", fun _ => "", "", "", "", "",
        fun _ => ""⟩ .literal ['a'] =
      (formatWalk ⟨"", "", "", "", "", fun _ => "", "", "", fun _ => "", "", "", "",
        "", fun _ => ""⟩ .literal []).map fun s => String.singleton 'a' ++ s :=
  ⟨by decide,
    (C7_format_errors ⟨"", "", "", "", "", fun _ => "", "", "", fun _ => "", "", "",
      "", "", fun _ => ""⟩ ['a']).2.2 'a' [] (by decide)⟩

/-- C8 (confirmed).  Cross-kind date algebra through the Julian Day
projection: date subtraction is the absolute difference of the `jd`
values (hence non-negative and symmetric), equality compares the `jd`
values (so dates of different kinds at the same instant are equal),
and ordering is transitive. -/
theorem C8_date_algebra (elapsed : ℕ → ℕ) (monlen : ℕ → ℕ → ℕ) (a b c : DateObj) :
    DateObj.subDate elapsed monlen a b =
      |DateObj.jd elapsed monlen a - DateObj.jd elapsed monlen b| ∧
    0 ≤ DateObj.subDate elapsed monlen a b ∧
    DateObj.subDate elapsed monlen a b = DateObj.subDate elapsed monlen b a ∧
    (DateObj.eq elapsed monlen a b ↔
      DateObj.jd elapsed monlen a = DateObj.jd elapsed monlen b) ∧
    (DateObj.lt elapsed monlen a b → DateObj.lt elapsed monlen b c →
      DateObj.lt elapsed monlen a c) :=
  ⟨rfl, abs_nonneg _, abs_sub_comm _ _, Iff.rfl, fun h1 h2 => lt_trans h1 h2⟩

theorem C8_date_algebra_witness :
    DateObj.lt elapsedC monlenC (.jul (1 / 2)) (.jul (3 / 2)) ∧
    DateObj.lt elapsedC monlenC (.jul (3 / 2)) (.jul (5 / 2)) ∧
    DateObj.lt elapsedC monlenC (.jul (1 / 2)) (.jul (5 / 2)) := by
  have h1 : DateObj.lt elapsedC monlenC (.jul (1 / 2)) (.jul (3 / 2)) := by
    unfold DateObj.lt DateObj.jd
    norm_num
  have h2 : DateObj.lt elapsedC monlenC (.jul (3 / 2)) (.jul (5 / 2)) := by
    unfold DateObj.lt DateObj.jd
    norm_num
  exact ⟨h1, h2,
    (C8_date_algebra elapsedC monlenC (.jul (1 / 2)) (.jul (3 / 2))
      (.jul (5 / 2))).2.2.2.2 h1 h2⟩

/-- C9 (confirmed; spec-modelled collaborators for the Hebrew kind).
Weekday and Sabbath: on every well-formed date, `weekday` equals
`floor(jd + 1.5) mod 7 + 1` and lies in 1..7, and `shabbos` returns a
date falling on weekday 7 which equals the original date whenever that
date is already a Saturday. -/
theorem C9_weekday_shabbos (elapsed : ℕ → ℕ) (monlen : ℕ → ℕ → ℕ)
    (hmono : ∀ a b : ℕ, a ≤ b → elapsed a ≤ elapsed b)
    (hpart : ∀ k, 1 ≤ k → elapsed (k + 1) = elapsed k + HebrewDate.yearLen monlen k)
    (hep : elapsed 1 = 1)
    (hgrow : ∀ k, 365 * (k + 1) ≤ elapsed (k + 3))
    (o : DateObj) (hwf : DateObj.WF elapsed monlen o) :
    DateObj.weekday elapsed monlen o =
      ⌊DateObj.jd elapsed monlen o + 3 / 2⌋ % 7 + 1 ∧
    1 ≤ DateObj.weekday elapsed monlen o ∧
    DateObj.weekday elapsed monlen o ≤ 7 ∧
    ∃ r : DateObj, DateObj.shabbos elapsed monlen o = .ok (some r) ∧
      DateObj.weekday elapsed monlen r = 7 ∧
      (DateObj.weekday elapsed monlen o = 7 → DateObj.eq elapsed monlen r o) := by
  obtain ⟨K, hjd⟩ := DateObj.WF_jd_canonical elapsed monlen o hwf
  have hw := DateObj.weekday_canonical elapsed monlen o K hjd
  have hKheb : DateObj.isHebKind o → 347997 ≤ K := by
    intro h
    cases o with
    | jul day => exact h.elim
    | greg go => exact h.elim
    | heb ho =>
        obtain ⟨N, hN1, hjd2⟩ :=
          DateObj.WF_jd_heb elapsed monlen hmono (le_of_eq hep.symm) ho hwf
        have hcast : (K : ℚ) = ((347996 + N : ℤ) : ℚ) := by
          rw [hjd2] at hjd
          linarith
        have : K = 347996 + (N : ℤ) := by exact_mod_cast hcast
        omega
  obtain ⟨r, hok, hwr, hsame⟩ :=
    DateObj.shabbos_total elapsed monlen hmono hpart (le_of_eq hep) hgrow o K hjd hKheb
  refine ⟨?_, by omega, by omega, r, hok, hwr, hsame⟩
  rw [hw, hjd, show (K : ℚ) + 1 / 2 + 3 / 2 = ((K + 2 : ℤ) : ℚ) by push_cast; ring,
      Int.floor_intCast]

theorem C9_weekday_shabbos_witness :
    DateObj.weekday elapsedC monlenC (.jul (1 / 2)) =
      ⌊DateObj.jd elapsedC monlenC (.jul (1 / 2)) + 3 / 2⌋ % 7 + 1 ∧
    1 ≤ DateObj.weekday elapsedC monlenC (.jul (1 / 2)) ∧
    DateObj.weekday elapsedC monlenC (.jul (1 / 2)) ≤ 7 ∧
    ∃ r : DateObj, DateObj.shabbos elapsedC monlenC (.jul (1 / 2)) = .ok (some r) ∧
      DateObj.weekday elapsedC monlenC r = 7 ∧
      (DateObj.weekday elapsedC monlenC (.jul (1 / 2)) = 7 →
        DateObj.eq elapsedC monlenC r (.jul (1 / 2))) :=
  C9_weekday_shabbos elapsedC monlenC elapsedC_mono elapsedC_part rfl elapsedC_grow
    (.jul (1 / 2)) ⟨0, by norm_num⟩

/-- C10 (confirmed).  The HTTP caller's `hebrew_month`: months 1–10
map to their transliterated names, but the branches for months 11–13
compare the date object itself to an `int` — which `BaseDate.__eq__`
always answers `False` — so the function falls through and returns
`None` for every date in months 11, 12 and 13. -/
theorem C10_hebrew_month (ho : HebObj) :
    (1 ≤ ho.month ∧ ho.month ≤ 10 → ∃ s, Main.hebrew_month ho = some s) ∧
    (ho.month = 11 ∨ ho.month = 12 ∨ ho.month = 13 →
      Main.hebrew_month ho = none) := by
  constructor
  · rintro ⟨h1, h2⟩
    have hm : ho.month = 1 ∨ ho.month = 2 ∨ ho.month = 3 ∨ ho.month = 4 ∨
        ho.month = 5 ∨ ho.month = 6 ∨ ho.month = 7 ∨ ho.month = 8 ∨
        ho.month = 9 ∨ ho.month = 10 := by omega
    rcases hm with h | h | h | h | h | h | h | h | h | h <;>
      · simp [Main.hebrew_month, h]
  · rintro (h | h | h) <;>
      · simp [Main.hebrew_month, Main.hebEqInt, h]

theorem C10_hebrew_month_witness :
    (1 ≤ (⟨5782, 7, 1, none⟩ : HebObj).month ∧
      (⟨5782, 7, 1, none⟩ : HebObj).month ≤ 10 ∧
      ∃ s, Main.hebrew_month ⟨5782, 7, 1, none⟩ = some s) ∧
    ((⟨5782, 11, 1, none⟩ : HebObj).month = 11 ∧
      Main.hebrew_month ⟨5782, 11, 1, none⟩ = none) :=
  ⟨⟨by decide, by decide, (C10_hebrew_month ⟨5782, 7, 1, none⟩).1 (by decide)⟩,
   ⟨by decide, (C10_hebrew_month ⟨5782, 11, 1, none⟩).2 (Or.inl rfl)⟩⟩
